import Mathlib

/-!
Verification of the pip-tools upgrade orchestrator.

Text handled by the Python scripts is modelled as lists of characters;
the helpers below implement the Python string primitives the scripts use
(strip, lower, split, startswith).  The version algebra models the external
packaging library (release tuples, PEP-440-style comparison with implicit
zero padding); the scripts treat it as a collaborator.
-/

deriving instance DecidableEq for Except

namespace PT

/-- Characters treated as whitespace by Python str.strip and the regex class for whitespace. -/
def isSpaceC (c : Char) : Bool :=
  c == ' ' || c == '\t' || c == '\n' || c == '\r' || c == '\x0b' || c == '\x0c'

/-- A piece of text, modelled as its list of characters. -/
abbrev Str := List Char

/-- Coerce a Lean string literal into the character-list model. -/
def str (s : String) : Str := s.data

/-- Python str.lower, per character. -/
def lowerChars (l : Str) : Str := l.map Char.toLower

/-- Remove trailing whitespace characters. -/
def dropTrailingSp : Str → Str
  | [] => []
  | c :: rest =>
    let r := dropTrailingSp rest
    if r.isEmpty && isSpaceC c then [] else c :: r

/-- Python str.strip: leading and trailing whitespace removed. -/
def trimChars (l : Str) : Str := dropTrailingSp (l.dropWhile isSpaceC)

/-- Python str.split(sep) for a one-character separator. -/
def splitOnChar (sep : Char) : Str → List Str
  | [] => [[]]
  | c :: rest =>
    if c == sep then [] :: splitOnChar sep rest
    else
      match splitOnChar sep rest with
      | h :: t => (c :: h) :: t
      | [] => [[c]]

/-- Python s.split("=="): cut at every non-overlapping occurrence of the two-character separator, scanning left to right. -/
def splitEq : Str → List Str
  | [] => [[]]
  | '=' :: '=' :: rest => [] :: splitEq rest
  | c :: rest =>
    match splitEq rest with
    | h :: t => (c :: h) :: t
    | [] => [[c]]

/-- Rejoin split pieces with the two-character separator. -/
def joinEq : List Str → Str
  | [] => []
  | [x] => x
  | x :: rest => x ++ '=' :: '=' :: joinEq rest

/-- Python s.split("==", 1): cut at the first occurrence only (the remainder keeps
any later separators); none when the separator is absent. -/
def splitEq1 (t : Str) : Option (Str × Str) :=
  match splitEq t with
  | [] => none
  | [_] => none
  | x :: rest => some (x, joinEq rest)

/-- Numeric value of a run of decimal digits. -/
def digitsVal (l : Str) : Nat := l.foldl (fun a c => 10 * a + (c.toNat - 48)) 0

/-- Model of packaging.version.Version parsing: a dotted sequence of numeric release
components; anything else is an InvalidVersion parse failure.  Surrounding
whitespace is tolerated, as in the library. -/
def parseVer (s : Str) : Option (List Nat) :=
  let t := trimChars s
  if t.isEmpty then none
  else
    let parts := splitOnChar '.' t
    if parts.all (fun p => !p.isEmpty && p.all Char.isDigit) then
      some (parts.map digitsVal)
    else none

/-- Parsed release tuple with an arbitrary default for callers that have already checked validity. -/
def parseVerD (s : Str) : List Nat := (parseVer s).getD []

/-- PEP-440-style comparison of release tuples: componentwise, with missing
trailing components read as zero (so 1.0 equals 1.0.0). -/
def verCmp : List Nat → List Nat → Ordering
  | [], bs => if bs.all (fun b => b == 0) then Ordering.eq else Ordering.lt
  | a :: as, [] => if (a :: as).all (fun x => x == 0) then Ordering.eq else Ordering.gt
  | a :: as, b :: bs =>
    if a < b then Ordering.lt else if b < a then Ordering.gt else verCmp as bs

def verLtB (a b : List Nat) : Bool := verCmp a b == Ordering.lt

def verLeB (a b : List Nat) : Bool := verCmp a b != Ordering.gt

/-- The key order used by sorted(-, key=Version) on version strings. -/
abbrev verLeP (a b : Str) : Prop := verLeB (parseVerD a) (parseVerD b) = true

instance : DecidableRel verLeP :=
  fun a b => inferInstanceAs (Decidable (verLeB (parseVerD a) (parseVerD b) = true))

/-- Python sorted(-, key=Version): a stable sort by the parsed version,
modelled by the (stable) insertion sort. -/
def sortByVer (l : List Str) : List Str := List.insertionSort verLeP l

/-- Specifier clause operators of the packaging library. -/
inductive SpecOp where
  | eq
  | ne
  | ltOp
  | leOp
  | gtOp
  | geOp
  | compat
  | arb

deriving instance DecidableEq for SpecOp

/-- One parsed specifier clause: the operator and the version text it compares against. -/
structure SpecClause where
  op : SpecOp
  vstr : Str

deriving instance DecidableEq for SpecClause

/-- Increment the last component of a release tuple (for compatible-release upper bounds). -/
def bumpLast : List Nat → List Nat
  | [] => []
  | [a] => [a + 1]
  | a :: rest => a :: bumpLast rest

/-- Parse one specifier clause (SpecifierSet element); an unrecognised operator or
an invalid version is an InvalidSpecifier parse failure. -/
def parseClause (t0 : Str) : Option SpecClause :=
  match trimChars t0 with
  | '=' :: '=' :: '=' :: rest => some ⟨SpecOp.arb, trimChars rest⟩
  | '=' :: '=' :: rest => (parseVer rest).map (fun _ => ⟨SpecOp.eq, trimChars rest⟩)
  | '!' :: '=' :: rest => (parseVer rest).map (fun _ => ⟨SpecOp.ne, trimChars rest⟩)
  | '<' :: '=' :: rest => (parseVer rest).map (fun _ => ⟨SpecOp.leOp, trimChars rest⟩)
  | '>' :: '=' :: rest => (parseVer rest).map (fun _ => ⟨SpecOp.geOp, trimChars rest⟩)
  | '~' :: '=' :: rest =>
    match parseVer rest with
    | some comps => if 2 ≤ comps.length then some ⟨SpecOp.compat, trimChars rest⟩ else none
    | none => none
  | '<' :: rest => (parseVer rest).map (fun _ => ⟨SpecOp.ltOp, trimChars rest⟩)
  | '>' :: rest => (parseVer rest).map (fun _ => ⟨SpecOp.gtOp, trimChars rest⟩)
  | _ => none

/-- Does the installed version (raw text and parsed tuple) satisfy one clause. -/
def clauseSat (c : SpecClause) (rawX : Str) (x : List Nat) : Bool :=
  match c.op with
  | SpecOp.arb => lowerChars rawX == lowerChars c.vstr
  | SpecOp.eq => verCmp x (parseVerD c.vstr) == Ordering.eq
  | SpecOp.ne => verCmp x (parseVerD c.vstr) != Ordering.eq
  | SpecOp.ltOp => verLtB x (parseVerD c.vstr)
  | SpecOp.leOp => verLeB x (parseVerD c.vstr)
  | SpecOp.gtOp => verLtB (parseVerD c.vstr) x
  | SpecOp.geOp => verLeB (parseVerD c.vstr) x
  | SpecOp.compat =>
    let comps := parseVerD c.vstr
    verLeB comps x && verLtB x (bumpLast comps.dropLast)

/-- Model of SpecifierSet(s): comma-separated clauses, empty pieces ignored;
the empty set is always satisfied. -/
def parseSpecSet (s : Str) : Option (List SpecClause) :=
  (((splitOnChar ',' s).map trimChars).filter (fun p => !p.isEmpty)).mapM parseClause

/-- contains: a SpecifierSet is a conjunction of its clauses. -/
def specContains (cs : List SpecClause) (rawX : Str) (x : List Nat) : Bool :=
  cs.all (fun c => clauseSat c rawX x)

/-- Python truthiness for an optional string: None and the empty string are falsy. -/
def optTruthy : Option Str → Option Str
  | none => none
  | some s => if s.isEmpty then none else some s

/-!
Index client (availableVersions).  Both scripts parse the comma-separated
entries after the Available versions: line of the pip output; the entries
list below is that already-split raw input.  The trail-selector variant
(get_version_for_rev_dependendencies.get_available_versions) validates every
entry, skipping invalid ones; the forward-resolver variant
(dependency_resolver_final.get_available_versions) sorts with key=Version,
so a single invalid entry raises InvalidVersion, which escapes the function
(only CalledProcessError is caught there).
-/

/-- get_available_versions of get_version_for_rev_dependendencies.py:
strip each entry, keep only entries that parse, sort ascending. -/
def get_available_versions_trail (entries : List Str) : List Str :=
  sortByVer ((entries.map trimChars).filter (fun v => (parseVer v).isSome))

/-- get_available_versions of dependency_resolver_final.py: strip each entry and
sort with key=Version; any invalid entry raises out of the call. -/
def get_available_versions_fwd (entries : List Str) : Except Unit (List Str) :=
  let vs := entries.map trimChars
  if vs.all (fun v => (parseVer v).isSome) then Except.ok (sortByVer vs)
  else Except.error ()

/-- main of get_version_for_rev_dependendencies.py on the version list it obtained:
no versions, an invalid input version, an invalid listed version (the comparison
raises), or no higher version all yield no output; otherwise the first-higher,
latest and mid-index trail versions. -/
def trailSelect (versions : List Str) (input_version : Str) : Option (Str × Str × Str) :=
  if versions.isEmpty then none
  else
    match parseVer input_version with
    | none => none
    | some inputV =>
      if versions.all (fun v => (parseVer v).isSome) then
        let higher := versions.filter (fun v => verLtB inputV (parseVerD v))
        match higher.head?, higher.getLast? with
        | some first, some latest =>
          let firstIdx := versions.indexOf first
          let latestIdx := versions.indexOf latest
          some (first, latest, versions.getD ((firstIdx + latestIdx) / 2) [])
        | _, _ => none
      else none

/-!
Manifest store (get_normal_max_versions.py).  Manifests are ordered lists of
lines, each line without its terminating newline.
-/

/-- Association-list update mirroring a Python dict assignment d[k] = v:
the value of an existing key is replaced in place, a new key is appended. -/
def dictSet (d : List (Str × Str)) (k v : Str) : List (Str × Str) :=
  if d.any (fun e => e.1 == k) then d.map (fun e => if e.1 == k then (k, v) else e)
  else d ++ [(k, v)]

/-- First-match association lookup, mirroring Python dict.get on a no-duplicate dict. -/
def lookupD (d : List (Str × Str)) (k : Str) : Option Str :=
  (d.find? (fun e => e.1 == k)).map (fun e => e.2)

/-- read_requirements: strip each line; a non-empty line containing "==" is split on
every occurrence and unpacked into exactly two parts, stored stripped; three or
more parts raise ValueError, which the surrounding handler turns into returning
the packages collected so far. -/
def readReqs (acc : List (Str × Str)) : List Str → List (Str × Str)
  | [] => acc
  | l :: ls =>
    let t := trimChars l
    if t.isEmpty then readReqs acc ls
    else
      match splitEq t with
      | [_] => readReqs acc ls
      | [p, v] => readReqs (dictSet acc (trimChars p) (trimChars v)) ls
      | _ => acc

/-- get_package_version: read the pins, lower-case the keys (later keys win),
return the version when found and non-empty (Python truthiness). -/
def get_package_version (lines : List Str) (package_name : Str) : Option Str :=
  let pkgs := readReqs [] lines
  let lower := pkgs.foldl (fun acc e => dictSet acc (lowerChars e.1) e.2) []
  match lookupD lower (lowerChars package_name) with
  | some v => if v.isEmpty then none else some v
  | none => none

/-- One line of update_package_version_in_file: a stripped, non-comment,
non-empty line containing "==" whose package part matches case-insensitively
is replaced by the stripped original-casing name, "==", and the new version;
every other line is written back unchanged. -/
def updLine (pkgL new : Str) (line : Str) : Bool × Str :=
  if !(trimChars line).isEmpty && !((trimChars line).head? == some '#') then
    match splitEq1 (trimChars line) with
    | some (p, _v) =>
      if lowerChars (trimChars p) == pkgL then (true, trimChars p ++ str "==" ++ new)
      else (false, line)
    | none => (false, line)
  else (false, line)

/-- update_package_version_in_file on the manifest lines: rewrite matching pin
lines, report whether any line was updated. -/
def update_package_version_in_file (package_name new_version : Str) (lines : List Str) :
    Bool × List Str :=
  let processed := lines.map (updLine (lowerChars package_name) new_version)
  (processed.any (fun r => r.1), processed.map (fun r => r.2))

/-- A well-formed manifest line: when the line splits at its first "==", the
package part carries no stray single "=" once stripped.  Every ordinary pin
line (name==version with optional surrounding whitespace) satisfies this. -/
def keyNoEq (l : Str) : Bool :=
  match splitEq1 (trimChars l) with
  | some pr => decide ('=' ∉ trimChars pr.1)
  | none => true

/-!
Task-manifest editor (extract_install_pip_apt_from_yml.set_package_version).
The two anchored, case-insensitive patterns are
(\s*-\s+)(pkg)==([^\s]+)(.*) and (\s*name:\s+)(pkg)==([^\s]+)(.*); both are
implemented by maximal munch, which agrees with the regex engine whenever the
package name does not itself start with a whitespace character.
-/

/-- LIST_ITEM matcher: groups (prefix, package as written, version, suffix). -/
def matchListItem (pkg line : Str) : Option (Str × Str × Str × Str) :=
  let ws1 := line.takeWhile isSpaceC
  match line.dropWhile isSpaceC with
  | '-' :: r2 =>
    let ws2 := r2.takeWhile isSpaceC
    if ws2.isEmpty then none
    else
      let r3 := r2.dropWhile isSpaceC
      let cand := r3.take pkg.length
      if lowerChars cand == lowerChars pkg then
        match r3.drop pkg.length with
        | '=' :: '=' :: r4 =>
          let ver := r4.takeWhile (fun c => !isSpaceC c)
          if ver.isEmpty then none
          else some (ws1 ++ '-' :: ws2, cand, ver, r4.drop ver.length)
        | _ => none
      else none
  | _ => none

/-- SINGLE_ITEM matcher: groups (prefix, package as written, version, suffix);
the name: key is matched case-insensitively as the whole pattern is. -/
def matchSingleItem (pkg line : Str) : Option (Str × Str × Str × Str) :=
  let ws1 := line.takeWhile isSpaceC
  let r1 := line.dropWhile isSpaceC
  let key := r1.take 5
  if lowerChars key == str "name:" then
    let r2 := r1.drop 5
    let ws2 := r2.takeWhile isSpaceC
    if ws2.isEmpty then none
    else
      let r3 := r2.dropWhile isSpaceC
      let cand := r3.take pkg.length
      if lowerChars cand == lowerChars pkg then
        match r3.drop pkg.length with
        | '=' :: '=' :: r4 =>
          let ver := r4.takeWhile (fun c => !isSpaceC c)
          if ver.isEmpty then none
          else some (ws1 ++ key ++ ws2, cand, ver, r4.drop ver.length)
        | _ => none
      else none
  else none

/-- Try the LIST_ITEM pattern first, then SINGLE_ITEM, as the loop body does. -/
def matchPinLine (pkg line : Str) : Option (Str × Str × Str × Str) :=
  match matchListItem pkg line with
  | some m => some m
  | none => matchSingleItem pkg line

/-- The line loop of set_package_version: carries the updated and package_found
flags and old_version (overwritten by every match) down the lines, rewriting
each matching line whose version differs from the target. -/
def setLoop (pkg new : Str) (upd found : Bool) (old : Option Str) :
    List Str → Bool × Bool × Option Str × List Str
  | [] => (upd, found, old, [])
  | l :: ls =>
    match matchPinLine pkg l with
    | some (pre, asWritten, oldv, suf) =>
      let newLine := if oldv != new then pre ++ asWritten ++ str "==" ++ new ++ suf else l
      let r := setLoop pkg new (upd || oldv != new) true (some oldv) ls
      (r.1, r.2.1, r.2.2.1, newLine :: r.2.2.2)
    | none =>
      let r := setLoop pkg new upd found old ls
      (r.1, r.2.1, r.2.2.1, l :: r.2.2.2)

/-- The effect of the loop body on one line: a matching line whose version
differs from the target is rewritten from its captured groups, any other
line is kept. -/
def rewriteLine (pkg new : Str) (l : Str) : Str :=
  match matchPinLine pkg l with
  | some (pre, asWritten, oldv, suf) =>
    if oldv != new then pre ++ asWritten ++ str "==" ++ new ++ suf else l
  | none => l

/-- The versions carried by the matching lines, in file order. -/
def matchedVersions (pkg : Str) (lines : List Str) : List Str :=
  lines.filterMap (fun l => (matchPinLine pkg l).map (fun m => m.2.2.1))

/-- Outcome of set_package_version. -/
inductive SetStatus where
  | updated (old : Str)
  | unchanged
  | not_found
  | ioError

deriving instance DecidableEq for SetStatus

/-- set_package_version on the file lines: updated carries the old version from
the last matching line; unchanged when matches exist only at the target version;
not_found when nothing matches. -/
def set_package_version (pkg new : Str) (lines : List Str) : SetStatus × List Str :=
  let r := setLoop pkg new false false none lines
  if r.1 then (SetStatus.updated (r.2.2.1.getD []), r.2.2.2)
  else if r.2.1 then (SetStatus.unchanged, r.2.2.2)
  else (SetStatus.not_found, r.2.2.2)

/-- set_package_version at the file-system boundary: a missing file or a read
failure yields the error status; the file is opened for writing only on the
updated path.  (A failure of the write itself is outside this model.) -/
def setPkgVersionFS (pkg new : Str) (file : Option (List Str)) (readOk : Bool) :
    SetStatus × Option (List Str) :=
  match file with
  | none => (SetStatus.ioError, none)
  | some lines =>
    if !readOk then (SetStatus.ioError, some lines)
    else
      match set_package_version pkg new lines with
      | (SetStatus.updated old, out) => (SetStatus.updated old, some out)
      | (st, _) => (st, some lines)

/-!
Forward-conflict resolver (dependency_resolver_final.py).  The pipdeptree
dependency entries and the collaborator answers (index entries for a package,
maximum requirement-file pin) are inputs.
-/

/-- One pipdeptree dependency entry: package_name, installed_version
(None modelled as none), required_version specifier text. -/
structure DepEntry where
  package_name : Str
  installed_version : Option Str
  required_version : Str

/-- find_lowest_valid_version: first listed version (ascending) satisfying the
specifier; an invalid index entry or an invalid specifier raises out of the
call (error), no satisfying version is ok none. -/
def find_lowest_valid_version (availEntries : List Str) (specRaw : Str) :
    Except Unit (Option Str) :=
  match get_available_versions_fwd availEntries with
  | Except.error _ => Except.error ()
  | Except.ok versions =>
    match parseSpecSet specRaw with
    | none => Except.error ()
    | some spec =>
      Except.ok (versions.find? (fun v =>
        match parseVer v with
        | some pv => specContains spec v pv
        | none => false))

/-- The per-dependency body of dependency_resolver_final.main: skip a missing
installed version, an empty or any specifier, a satisfied specifier, or any
exception (invalid version or specifier text); otherwise choose between the
lowest satisfying index version and the maximum requirement-file pin.
Returns the chosen version when a repair pin is emitted. -/
def resolveDep (dep : DepEntry) (availEntries : List Str) (reqVer : Option Str) : Option Str :=
  let requiredSpec := trimChars dep.required_version
  match dep.installed_version with
  | none => none
  | some inst =>
    if inst == str "?" || inst.isEmpty then none
    else if lowerChars requiredSpec == str "any" || requiredSpec.isEmpty then none
    else
      match parseVer inst, parseSpecSet requiredSpec with
      | some vInst, some spec =>
        if specContains spec inst vInst then none
        else
          match find_lowest_valid_version availEntries requiredSpec with
          | Except.error _ => none
          | Except.ok pyOpt =>
            match optTruthy pyOpt, optTruthy reqVer with
            | some py, some rq =>
              match parseVer py, parseVer rq with
              | some vp, some vr => some (if verLtB vp vr then rq else py)
              | _, _ => none
            | none, some rq => some rq
            | some py, none => some py
            | none, none => none
      | _, _ => none

/-- dependency_resolver_final.main over a dependency list: the emitted pins. -/
def dependency_issues (deps : List DepEntry) (avail : Str → List Str)
    (reqv : Str → Option Str) : List Str :=
  deps.filterMap (fun d =>
    (resolveDep d (avail d.package_name) (reqv d.package_name)).map
      (fun chosen => d.package_name ++ str "==" ++ chosen))

/-!
Iteration engine (update_dependency_rev_dependency.main).  The index, probe
and installer collaborators are a World over an abstract environment state;
install is the only state-changing call.  Sets of strings are modelled as
duplicate-free lists (iteration order of a Python set is arbitrary; the
claims below do not depend on it).
-/

variable {σ : Type}

/-- The engine collaborators: parse_dependency_issues, parse_reverse_dependencies,
get_trail_version, get_installed_version and install_package, over an abstract
environment state changed only by install. -/
structure World (σ : Type) where
  depIssues : σ → Str → List Str
  revDeps : σ → Str → List Str
  trailVer : σ → Str → Str → Option Str
  installedVer : σ → Str → Option Str
  install : σ → Str → Bool × σ

/-- upgrade_history: entries (name, previous_version, upgraded_version). -/
abbrev Hist := List (Str × Str × Str)

/-- Python dict assignment upgrade_history[name] = record. -/
def histSet (h : Hist) (n p u : Str) : Hist :=
  if h.any (fun e => e.1 == n) then h.map (fun e => if e.1 == n then (n, p, u) else e)
  else h ++ [(n, p, u)]

/-- Lookup in the upgrade history. -/
def histGet (h : Hist) (n : Str) : Option (Str × Str) :=
  (h.find? (fun e => e.1 == n)).map (fun e => e.2)

/-- Python set.add on the duplicate-free list model. -/
def setInsert (n : Str) (l : List Str) : List Str :=
  if n ∈ l then l else n :: l

/-- Ghost record of one install step: the version observed just before the
install, whether the install succeeded, and the version observed just after
(observed only on success). -/
structure Obs where
  name : Str
  prev : Str
  instOk : Bool
  post : Option Str

deriving instance DecidableEq for Obs

/-- Resolve one candidate of the install loop: a name==version pin is used
as-is; a bare name is stripped and given the trail version of its installed
(or 0.0.0) version, skipped if no trail exists; a candidate with two or more
"==" occurrences raises ValueError out of main. -/
def resolveCand (w : World σ) (s : σ) (spec : Str) : Except Unit (Option (Str × Str)) :=
  match splitEq spec with
  | [name, _version] => Except.ok (some (name, spec))
  | [_] =>
    let name := trimChars spec
    let cur := (optTruthy (w.installedVer s name)).getD (str "0.0.0")
    match optTruthy (w.trailVer s name cur) with
    | none => Except.ok none
    | some tv => Except.ok (some (name, name ++ str "==" ++ tv))
  | _ => Except.error ()

/-- The install loop over the combined candidate list: for each candidate,
observe the previous version, install, and on success observe the new version,
record it in the history and add the name to the next frontier exactly when
the observed version changed; on failure only continue.  Returns the final
state, history, next frontier, and the ghost observation log; none models the
ValueError escape. -/
def processCands (w : World σ) : σ → List Str → Hist → Option (σ × Hist × List Str × List Obs)
  | s, [], hist => some (s, hist, [], [])
  | s, c :: rest, hist =>
    match resolveCand w s c with
    | Except.error _ => none
    | Except.ok none => processCands w s rest hist
    | Except.ok (some (name, fullspec)) =>
      let prev := (optTruthy (w.installedVer s name)).getD (str "Not Installed")
      let res := w.install s fullspec
      if res.1 then
        let post := (optTruthy (w.installedVer res.2 name)).getD (str "Installation failed")
        match processCands w res.2 rest (histSet hist name prev post) with
        | none => none
        | some (s2, hist2, nf, log) =>
          some (s2, hist2, if prev != post then setInsert name nf else nf,
                ⟨name, prev, true, some post⟩ :: log)
      else
        match processCands w res.2 rest hist with
        | none => none
        | some (s2, hist2, nf, log) =>
          some (s2, hist2, nf, ⟨name, prev, false, none⟩ :: log)

/-- Steps 1 and 2 of an iteration: the forward repair pins of every frontier
package, then the reverse-dependency trail pins (dependents without an
installed version or without a trail version are skipped), combined as a set. -/
def iterCandidates (w : World σ) (s : σ) (front : List Str) : List Str :=
  let fwd := (front.map (fun p => w.depIssues s p)).flatten
  let rev := (front.map (fun p =>
    (w.revDeps s p).filterMap (fun rd =>
      match optTruthy (w.installedVer s rd) with
      | none => none
      | some cv => (optTruthy (w.trailVer s rd cv)).map (fun tv => rd ++ str "==" ++ tv)))).flatten
  (fwd ++ rev).dedup

/-- Engine outcome: the final state, history and number of executed iterations,
or the iteration during which a ValueError escaped. -/
inductive EngRes (σ : Type) where
  | done (s : σ) (hist : Hist) (iters : Nat)
  | crashed (iters : Nat)

deriving instance DecidableEq for EngRes

/-- Number of iterations the engine executed. -/
def engineIters : EngRes σ → Nat
  | EngRes.done _ _ n => n
  | EngRes.crashed n => n

/-- The while loop of main: fuel is MAX_ITERATIONS minus the executed iteration
count, so the loop guard iteration < MAX_ITERATIONS is fuel > 0. -/
def engineLoop (w : World σ) : Nat → σ → List Str → Hist → Nat → EngRes σ
  | 0, s, _front, hist, it => EngRes.done s hist it
  | fuel + 1, s, front, hist, it =>
    if front.isEmpty then EngRes.done s hist it
    else
      if (iterCandidates w s front).isEmpty then EngRes.done s hist (it + 1)
      else
        match processCands w s (iterCandidates w s front) hist with
        | none => EngRes.crashed (it + 1)
        | some (s2, hist2, nf, _log) => engineLoop w fuel s2 nf hist2 (it + 1)

def MAX_ITERATIONS : Nat := 10

/-- update_dependency_rev_dependency.main on the initial target names. -/
def engineMain (w : World σ) (s0 : σ) (initial : List Str) : EngRes σ :=
  engineLoop w MAX_ITERATIONS s0 initial.dedup [] 0

/-!
Concrete collaborator instances used to evaluate the engine on closed inputs.
-/

/-- A concrete environment: the installed packages with their versions. -/
abbrev CState := List (Str × Str)

/-- Installed version in the concrete environment. -/
def cInstalled (s : CState) (n : Str) : Option Str :=
  (s.find? (fun e => e.1 == n)).map (fun e => e.2)

instance : DecidableEq (CState × Hist × List Str × List Obs) :=
  @instDecidableEqProd _ _ inferInstance (@instDecidableEqProd _ _ inferInstance
    (@instDecidableEqProd _ _ inferInstance inferInstance))

/-- A world whose forward resolver reports one repair pin X==2.0.0 for the
target A and whose installer always fails. -/
def failWorld : World CState :=
  { depIssues := fun _ p => if p == str "A" then [str "X==2.0.0"] else []
    revDeps := fun _ _ => []
    trailVer := fun _ _ _ => none
    installedVer := cInstalled
    install := fun s _ => (false, s) }

/-- Concrete start state for the failing-install run: X is installed at 1.0.0. -/
def failState : CState := [(str "X", str "1.0.0")]

/-- A world with no dependency issues at all and a successful no-op installer. -/
def idleWorld : World Unit :=
  { depIssues := fun _ _ => []
    revDeps := fun _ _ => []
    trailVer := fun _ _ _ => none
    installedVer := fun _ _ => none
    install := fun s _ => (true, s) }

/-- A world whose installer applies the pin to the concrete environment. -/
def okWorld : World CState :=
  { depIssues := fun _ p => if p == str "A" then [str "X==2.0.0"] else []
    revDeps := fun _ _ => []
    trailVer := fun _ _ _ => none
    installedVer := cInstalled
    install := fun s spec =>
      match splitEq spec with
      | [n, v] => (true, dictSet s n v)
      | _ => (false, s) }

/-!
Theorems.  First the order-theoretic facts about the version comparison,
then the per-component claims.
-/

theorem verCmp_self (a : List Nat) : verCmp a a = Ordering.eq := by
  induction a with
  | nil => simp [verCmp]
  | cons x xs ih => simp [verCmp, ih]

theorem verCmp_allZero_left (a b : List Nat) (h : ∀ x ∈ a, x = 0) :
    verCmp a b = (if b.all (fun x => x == 0) then Ordering.eq else Ordering.lt) := by
  induction a generalizing b with
  | nil => rw [verCmp]
  | cons x xs ih =>
    have hx : x = 0 := h x (by simp)
    have hxs : ∀ y ∈ xs, y = 0 := fun y hy => h y (by simp [hy])
    cases b with
    | nil =>
      rw [verCmp]
      have : (x :: xs).all (fun y => y == 0) = true := by
        simp only [List.all_eq_true, beq_iff_eq]
        intro y hy; exact h y hy
      simp [this, List.all_nil]
    | cons y ys =>
      rw [verCmp]
      subst hx
      rcases Nat.eq_zero_or_pos y with hy | hy
      · subst hy
        simpa [List.all_cons] using ih ys hxs
      · simp [Nat.lt_irrefl, hy, List.all_cons, Nat.pos_iff_ne_zero.mp hy]

theorem verCmp_allZero_right (a b : List Nat) (h : ∀ x ∈ b, x = 0) :
    verCmp a b = (if a.all (fun x => x == 0) then Ordering.eq else Ordering.gt) := by
  induction b generalizing a with
  | nil =>
    cases a with
    | nil => rw [verCmp]; simp
    | cons x xs => rw [verCmp]
  | cons y ys ih =>
    have hy : y = 0 := h y (by simp)
    have hys : ∀ x ∈ ys, x = 0 := fun x hx => h x (by simp [hx])
    cases a with
    | nil =>
      rw [verCmp]
      have : (y :: ys).all (fun x => x == 0) = true := by
        simp only [List.all_eq_true, beq_iff_eq]
        intro x hx; exact h x hx
      simp [this]
    | cons x xs =>
      rw [verCmp]
      subst hy
      rcases Nat.eq_zero_or_pos x with hx | hx
      · subst hx
        simpa [List.all_cons] using ih xs hys
      · simp [Nat.lt_irrefl, hx, List.all_cons, Nat.pos_iff_ne_zero.mp hx]

theorem verCmp_swap (a : List Nat) : ∀ b, verCmp b a = (verCmp a b).swap := by
  induction a with
  | nil =>
    intro b
    cases b with
    | nil => simp [verCmp, Ordering.swap]
    | cons y ys =>
      rw [verCmp, verCmp]
      by_cases h : (y :: ys).all (fun x => x == 0) = true <;>
        simp [h, Ordering.swap]
  | cons x xs ih =>
    intro b
    cases b with
    | nil =>
      rw [verCmp, verCmp]
      by_cases h : (x :: xs).all (fun y => y == 0) = true <;>
        simp [h, Ordering.swap]
    | cons y ys =>
      rw [verCmp, verCmp]
      rcases Nat.lt_trichotomy x y with h | h | h
      · simp [h, Nat.lt_asymm h, Ordering.swap]
      · subst h
        simp [Nat.lt_irrefl, ih ys]
      · simp [h, Nat.lt_asymm h, Ordering.swap]

theorem verCmp_lt_trans : ∀ {a b c : List Nat}, verCmp a b = Ordering.lt →
    verCmp b c = Ordering.lt → verCmp a c = Ordering.lt
  | [], b, c, _, h2 => by
    rw [verCmp]
    split
    · rename_i hc
      have hz : ∀ x ∈ c, x = 0 := by simpa [List.all_eq_true] using hc
      rw [verCmp_allZero_right b c hz] at h2
      split at h2 <;> exact absurd h2 (by simp)
    · rfl
  | x :: xs, [], c, h1, _ => by
    rw [verCmp] at h1
    split at h1 <;> exact absurd h1 (by simp)
  | x :: xs, y :: ys, [], _, h2 => by
    rw [verCmp] at h2
    split at h2 <;> exact absurd h2 (by simp)
  | x :: xs, y :: ys, z :: zs, h1, h2 => by
    rw [verCmp] at h1 h2 ⊢
    split at h1
    · rename_i hxy
      split at h2
      · rename_i hyz
        simp [Nat.lt_trans hxy hyz]
      · split at h2
        · exact absurd h2 (by simp)
        · rename_i hyz hzy
          have hyez : y = z := by omega
          subst hyez
          simp [hxy]
    · split at h1
      · exact absurd h1 (by simp)
      · rename_i hxy hyx
        have hxey : x = y := by omega
        subst hxey
        split at h2
        · rename_i hxz
          simp [hxz]
        · split at h2
          · exact absurd h2 (by simp)
          · rename_i hxz hzx
            have hxez : x = z := by omega
            subst hxez
            have hrec := verCmp_lt_trans h1 h2
            simp [Nat.lt_irrefl, hrec]

theorem allZero_iff_verCmp_nil (l : List Nat) :
    (∀ x ∈ l, x = 0) ↔ verCmp [] l = Ordering.eq := by
  rw [verCmp]
  constructor
  · intro h
    have : l.all (fun b => b == 0) = true := by
      simp only [List.all_eq_true, beq_iff_eq]; exact h
    simp [this]
  · intro h
    split at h
    · rename_i hc
      simpa [List.all_eq_true] using hc
    · exact absurd h (by simp)

theorem verCmp_eq_congr_right : ∀ {b c : List Nat}, verCmp b c = Ordering.eq →
    ∀ a, verCmp a b = verCmp a c
  | [], c, h, a => by
    have hz : ∀ x ∈ c, x = 0 := (allZero_iff_verCmp_nil c).2 h
    rw [verCmp_allZero_right a c hz, verCmp_allZero_right a [] (by simp)]
  | y :: ys, [], h, a => by
    have hz : ∀ x ∈ y :: ys, x = 0 := by
      have hsw := verCmp_swap (y :: ys) []
      rw [h] at hsw
      exact (allZero_iff_verCmp_nil (y :: ys)).2 (by simpa [Ordering.swap] using hsw)
    rw [verCmp_allZero_right a (y :: ys) hz, verCmp_allZero_right a [] (by simp)]
  | y :: ys, z :: zs, h, a => by
    rw [verCmp] at h
    split at h
    · exact absurd h (by simp)
    · split at h
      · exact absurd h (by simp)
      · rename_i hyz hzy
        have hyez : y = z := by omega
        subst hyez
        have ih := verCmp_eq_congr_right h
        cases a with
        | nil =>
          rw [verCmp, verCmp]
          have hiff : (∀ x ∈ ys, x = 0) ↔ (∀ x ∈ zs, x = 0) := by
            rw [allZero_iff_verCmp_nil, allZero_iff_verCmp_nil, ih []]
          by_cases hy0 : y = 0
          · subst hy0
            by_cases hys : ∀ x ∈ ys, x = 0
            · have hzs := hiff.1 hys
              have h1 : ((0 : Nat) :: ys).all (fun b => b == 0) = true := by
                simp only [List.all_eq_true, beq_iff_eq]
                intro x hx
                rcases List.mem_cons.1 hx with h | h
                · exact h
                · exact hys x h
              have h2 : ((0 : Nat) :: zs).all (fun b => b == 0) = true := by
                simp only [List.all_eq_true, beq_iff_eq]
                intro x hx
                rcases List.mem_cons.1 hx with h | h
                · exact h
                · exact hzs x h
              simp [h1, h2]
            · have hzs : ¬ ∀ x ∈ zs, x = 0 := fun hc => hys (hiff.2 hc)
              push_neg at hys hzs
              have h1 : ((0 : Nat) :: ys).all (fun b => b == 0) = false := by
                simp only [List.all_eq_false, beq_iff_eq]
                rcases hys with ⟨x, hx1, hx2⟩
                exact ⟨x, by simp [hx1], hx2⟩
              have h2 : ((0 : Nat) :: zs).all (fun b => b == 0) = false := by
                simp only [List.all_eq_false, beq_iff_eq]
                rcases hzs with ⟨x, hx1, hx2⟩
                exact ⟨x, by simp [hx1], hx2⟩
              simp [h1, h2]
          · have h1 : (y :: ys).all (fun b => b == 0) = false := by
              simp only [List.all_eq_false, beq_iff_eq]
              exact ⟨y, by simp, hy0⟩
            have h2 : (y :: zs).all (fun b => b == 0) = false := by
              simp only [List.all_eq_false, beq_iff_eq]
              exact ⟨y, by simp, hy0⟩
            simp [h1, h2]
        | cons x xs =>
          rw [verCmp, verCmp]
          rcases Nat.lt_trichotomy x y with hxy | hxy | hxy
          · simp [hxy]
          · subst hxy
            simp [Nat.lt_irrefl, ih xs]
          · simp [hxy, Nat.lt_asymm hxy]

theorem verCmp_eq_congr_left {a b : List Nat} (h : verCmp a b = Ordering.eq) (c : List Nat) :
    verCmp a c = verCmp b c := by
  have hba : verCmp b a = Ordering.eq := by
    have := verCmp_swap a b
    rw [h] at this
    simpa [Ordering.swap] using this
  have h1 := verCmp_eq_congr_right hba c
  have h2 := verCmp_swap a c
  have h3 := verCmp_swap b c
  calc verCmp a c = (verCmp c a).swap := by
        rw [h2, Ordering.swap_swap]
    _ = (verCmp c b).swap := by rw [h1]
    _ = verCmp b c := by rw [h3, Ordering.swap_swap]

theorem verLeB_true_iff (a b : List Nat) : verLeB a b = true ↔ verCmp a b ≠ Ordering.gt := by
  unfold verLeB
  cases h : verCmp a b <;> decide

theorem verLtB_true_iff (a b : List Nat) : verLtB a b = true ↔ verCmp a b = Ordering.lt := by
  unfold verLtB
  cases h : verCmp a b <;> decide

theorem verLeB_refl (a : List Nat) : verLeB a a = true :=
  (verLeB_true_iff a a).2 (by rw [verCmp_self]; simp)

theorem verLeB_total (a b : List Nat) : verLeB a b = true ∨ verLeB b a = true := by
  by_cases h : verCmp a b = Ordering.gt
  · right
    refine (verLeB_true_iff b a).2 ?_
    have hs := verCmp_swap a b
    rw [h] at hs
    rw [hs]
    simp [Ordering.swap]
  · exact Or.inl ((verLeB_true_iff a b).2 h)

theorem verLeB_trans {a b c : List Nat} (h1 : verLeB a b = true) (h2 : verLeB b c = true) :
    verLeB a c = true := by
  rw [verLeB_true_iff] at h1 h2 ⊢
  rcases hab : verCmp a b with hx | hx | hx
  · rcases hbc : verCmp b c with hy | hy | hy
    · intro hac
      have hlt := verCmp_lt_trans hab hbc
      rw [hlt] at hac
      exact absurd hac (by simp)
    · rw [← verCmp_eq_congr_right hbc a, hab]
      simp
    · exact absurd hbc h2
  · rw [verCmp_eq_congr_left hab c]
    exact h2
  · exact absurd hab h1

theorem verLtB_le {a b : List Nat} (h : verLtB a b = true) : verLeB a b = true := by
  rw [verLtB_true_iff] at h
  exact (verLeB_true_iff a b).2 (by rw [h]; simp)

theorem not_verLtB_le {a b : List Nat} (h : verLtB a b = false) : verLeB b a = true := by
  refine (verLeB_true_iff b a).2 ?_
  intro hba
  have hs := verCmp_swap a b
  rw [hba] at hs
  have hlt : verCmp a b = Ordering.lt := by
    cases hab : verCmp a b with
    | lt => rfl
    | eq => rw [hab] at hs; exact absurd hs (by simp [Ordering.swap])
    | gt => rw [hab] at hs; exact absurd hs (by simp [Ordering.swap])
  have htr : verLtB a b = true := (verLtB_true_iff a b).2 hlt
  rw [h] at htr
  exact absurd htr (by simp)

theorem verLeP_total (a b : Str) : verLeP a b ∨ verLeP b a :=
  verLeB_total (parseVerD a) (parseVerD b)

theorem verLeP_trans (a b c : Str) : verLeP a b → verLeP b c → verLeP a c :=
  fun h1 h2 => verLeB_trans h1 h2

theorem sortByVer_sorted (l : List Str) : List.Sorted verLeP (sortByVer l) := by
  haveI : IsTotal Str verLeP := ⟨verLeP_total⟩
  haveI : IsTrans Str verLeP := ⟨verLeP_trans⟩
  exact List.sorted_insertionSort verLeP l

theorem sortByVer_perm (l : List Str) : (sortByVer l).Perm l :=
  List.perm_insertionSort verLeP l

/-- Claim C9 counterexample: on an index answer with one malformed entry, the
forward-resolver variant of availableVersions fails (the sort raises
InvalidVersion) instead of silently dropping the entry; the trail-selector
variant drops it as the claim describes. -/
theorem c9_fwd_variant_fails_cex :
    get_available_versions_fwd [str "1.0.0", str "not a version"] = Except.error () ∧
    get_available_versions_trail [str "1.0.0", str "not a version"] = [str "1.0.0"] :=
  ⟨by decide, by decide⟩

/-- Claim C9 (amended): the trail-selector variant of availableVersions returns
exactly the parseable entries, sorted ascending by version order, and never
fails; the forward-resolver variant returns all entries sorted ascending when
every entry parses, and fails exactly when some entry is malformed. -/
theorem c9_available_versions_spec (entries : List Str) :
    List.Sorted verLeP (get_available_versions_trail entries) ∧
    (get_available_versions_trail entries).Perm
      ((entries.map trimChars).filter (fun v => (parseVer v).isSome)) ∧
    (∀ res, get_available_versions_fwd entries = Except.ok res →
       List.Sorted verLeP res ∧ res.Perm (entries.map trimChars)) ∧
    (get_available_versions_fwd entries = Except.error () ↔
       ∃ v ∈ entries.map trimChars, parseVer v = none) := by
  refine ⟨sortByVer_sorted _, sortByVer_perm _, ?_, ?_⟩
  · intro res h
    dsimp only [get_available_versions_fwd] at h
    split at h
    · injection h with h
      rw [← h]
      exact ⟨sortByVer_sorted _, sortByVer_perm _⟩
    · exact absurd h (by simp)
  · dsimp only [get_available_versions_fwd]
    split
    · rename_i hall
      simp only [List.all_eq_true] at hall
      constructor
      · intro h
        exact absurd h (by simp)
      · rintro ⟨v, hv, hp⟩
        have := hall v hv
        rw [hp] at this
        exact absurd this (by simp)
    · rename_i hall
      constructor
      · intro _
        simp only [List.all_eq_true, not_forall] at hall
        rcases hall with ⟨v, hv, hp⟩
        exact ⟨v, hv, by simpa [Option.not_isSome_iff_eq_none] using hp⟩
      · intro _
        rfl

/-- Claim C9 witness: the forward variant on two valid entries returns them
sorted ascending. -/
theorem c9_available_versions_spec_witness :
    List.Sorted verLeP [str "1.0", str "2.0"] ∧
    ([str "1.0", str "2.0"] : List Str).Perm ([str " 2.0 ", str "1.0"].map trimChars) :=
  (c9_available_versions_spec [str " 2.0 ", str "1.0"]).2.2.1 [str "1.0", str "2.0"] (by decide)

theorem getD_indexOf_self {α : Type} [BEq α] [LawfulBEq α] (d : α) :
    ∀ {l : List α} {x : α}, x ∈ l → l.getD (l.indexOf x) d = x := by
  intro l
  induction l with
  | nil => intro x h; cases h
  | cons a as ih =>
    intro x h
    by_cases hax : (a == x) = true
    · have hax2 : a = x := eq_of_beq hax
      subst hax2
      rw [List.indexOf, List.findIdx_cons]
      simp
    · rw [List.indexOf, List.findIdx_cons]
      simp only [hax, cond_false]
      rw [List.getD_cons_succ]
      have hmem : x ∈ as := by
        rcases List.mem_cons.1 h with h1 | h1
        · exact absurd (by rw [h1, beq_self_eq_true]) hax
        · exact h1
      exact ih hmem

/-- Claim C6: for the trail selector on ascending available versions A with H
the sublist of A strictly greater than the reference version: empty H produces
no output; otherwise the output is (first of H, last of H, A at the midpoint of
their indices in A); and a one-element H makes first, latest and trail equal. -/
theorem c6_trail_midpoint (A : List Str) (vref : Str) (w : List Nat)
    (hw : parseVer vref = some w)
    (hA : ∀ v ∈ A, (parseVer v).isSome)
    (hsort : List.Sorted verLeP A) :
    (A.filter (fun v => verLtB w (parseVerD v)) = [] → trailSelect A vref = none) ∧
    (∀ f l t, trailSelect A vref = some (f, l, t) →
       (A.filter (fun v => verLtB w (parseVerD v))).head? = some f ∧
       (A.filter (fun v => verLtB w (parseVerD v))).getLast? = some l ∧
       t = A.getD ((A.indexOf f + A.indexOf l) / 2) []) ∧
    (A.filter (fun v => verLtB w (parseVerD v)) ≠ [] → (trailSelect A vref).isSome) ∧
    ((A.filter (fun v => verLtB w (parseVerD v))).length = 1 →
       ∀ f l t, trailSelect A vref = some (f, l, t) → f = l ∧ l = t) := by
  by_cases hAe : A = []
  · subst hAe
    refine ⟨fun _ => by simp [trailSelect], ?_, ?_, ?_⟩
    · intro f l t h
      simp [trailSelect] at h
    · intro h
      exact absurd rfl h
    · intro _ f l t h
      simp [trailSelect] at h
  · have hne : A.isEmpty = false := by simpa [List.isEmpty_iff] using hAe
    have hAall : A.all (fun v => (parseVer v).isSome) = true := by
      simp only [List.all_eq_true]
      exact hA
    have hsel : trailSelect A vref =
        match (A.filter (fun v => verLtB w (parseVerD v))).head?,
              (A.filter (fun v => verLtB w (parseVerD v))).getLast? with
        | some first, some latest =>
          some (first, latest, A.getD ((A.indexOf first + A.indexOf latest) / 2) [])
        | _, _ => none := by
      unfold trailSelect
      rw [hne, hw]
      simp [hAall]
    cases hH : A.filter (fun v => verLtB w (parseVerD v)) with
    | nil =>
      rw [hH] at hsel
      simp only [List.head?_nil, List.getLast?_nil] at hsel
      refine ⟨fun _ => hsel, ?_, fun h => absurd rfl h, ?_⟩
      · intro f l t h
        rw [hsel] at h
        exact absurd h (by simp)
      · intro _ f l t h
        rw [hsel] at h
        exact absurd h (by simp)
    | cons x xs =>
      rw [hH] at hsel
      cases hL : (x :: xs).getLast? with
      | none => exact absurd hL (by simp)
      | some last =>
        rw [hL] at hsel
        simp only [List.head?_cons] at hsel
        have hx_mem : x ∈ A := by
          have : x ∈ A.filter (fun v => verLtB w (parseVerD v)) := by
            rw [hH]; exact List.mem_cons_self x xs
          exact (List.mem_filter.1 this).1
        refine ⟨fun h => absurd h (by simp), ?_, fun _ => by rw [hsel]; rfl, ?_⟩
        · intro f l t h
          rw [hsel] at h
          injection h with h
          injection h with ha hb
          injection hb with hb1 hb2
          refine ⟨by rw [List.head?_cons, ha], by rw [hb1], ?_⟩
          rw [← ha, ← hb1]
          exact hb2.symm
        · intro hlen f l t h
          have hxs : xs = [] := by
            simpa using hlen
          subst hxs
          have hlast : last = x := by
            rw [List.getLast?_singleton] at hL
            injection hL with hL
            exact hL.symm
          rw [hsel] at h
          injection h with h
          injection h with ha hb
          injection hb with hb1 hb2
          have hidx : (A.indexOf x + A.indexOf x) / 2 = A.indexOf x := by
            rw [← Nat.two_mul]
            exact Nat.mul_div_cancel_left _ (by norm_num)
          have hgd : A.getD (A.indexOf x) [] = x := getD_indexOf_self [] hx_mem
          refine ⟨by rw [← ha, ← hb1, hlast], ?_⟩
          rw [← hb1, hlast, ← hb2, hlast, hidx, hgd]

/-- Claim C6 witness: the spec seed scenario, reference 3.0.0 over the ascending
index 3.0.0, 3.1.0, 4.0.0, 5.0.0; first-higher 3.1.0, latest 5.0.0, and the
trail is the mid-index version 4.0.0. -/
theorem c6_trail_midpoint_witness :
    ([str "3.0.0", str "3.1.0", str "4.0.0", str "5.0.0"].filter
        (fun v => verLtB [3, 0, 0] (parseVerD v))).head? = some (str "3.1.0") ∧
    ([str "3.0.0", str "3.1.0", str "4.0.0", str "5.0.0"].filter
        (fun v => verLtB [3, 0, 0] (parseVerD v))).getLast? = some (str "5.0.0") ∧
    str "4.0.0" = [str "3.0.0", str "3.1.0", str "4.0.0", str "5.0.0"].getD
      (([str "3.0.0", str "3.1.0", str "4.0.0", str "5.0.0"].indexOf (str "3.1.0") +
        [str "3.0.0", str "3.1.0", str "4.0.0", str "5.0.0"].indexOf (str "5.0.0")) / 2) [] :=
  (c6_trail_midpoint [str "3.0.0", str "3.1.0", str "4.0.0", str "5.0.0"] (str "3.0.0")
      [3, 0, 0] (by decide) (by decide) (by decide)).2.1
    (str "3.1.0") (str "5.0.0") (str "4.0.0") (by decide)

/-- Claim C5: the forward-conflict resolver emits no repair for a dependency
whose installed version is missing (None, the question-mark placeholder, or
empty), whose specifier is empty or the literal any (case-insensitively, as the
code lowercases), or whose installed version satisfies the specifier. -/
theorem c5_no_repair_guard (dep : DepEntry) (availEntries : List Str) (reqVer : Option Str) :
    (dep.installed_version = none → resolveDep dep availEntries reqVer = none) ∧
    (∀ inst, dep.installed_version = some inst → (inst = str "?" ∨ inst = []) →
       resolveDep dep availEntries reqVer = none) ∧
    (trimChars dep.required_version = [] ∨
       lowerChars (trimChars dep.required_version) = str "any" →
       resolveDep dep availEntries reqVer = none) ∧
    (∀ inst vInst spec, dep.installed_version = some inst →
       parseVer inst = some vInst →
       trimChars dep.required_version ≠ [] →
       lowerChars (trimChars dep.required_version) ≠ str "any" →
       parseSpecSet (trimChars dep.required_version) = some spec →
       specContains spec inst vInst = true →
       resolveDep dep availEntries reqVer = none) := by
  refine ⟨?_, ?_, ?_, ?_⟩
  · intro h
    simp [resolveDep, h]
  · intro inst h h2
    rcases h2 with rfl | rfl
    · simp [resolveDep, h]
    · simp [resolveDep, h]
  · intro h
    cases hinst : dep.installed_version with
    | none => simp [resolveDep, hinst]
    | some inst =>
      by_cases hg : (inst == str "?" || inst.isEmpty) = true
      · simp [resolveDep, hinst, hg]
      · have hcond : (lowerChars (trimChars dep.required_version) == str "any"
            || (trimChars dep.required_version).isEmpty) = true := by
          rcases h with h | h
          · simp [h]
          · simp [h]
        simp [resolveDep, hinst, hg, hcond]
  · intro inst vInst spec hinst hpi hne hany hps hsat
    have h1 : inst ≠ str "?" := by
      intro hc
      rw [hc, show parseVer (str "?") = none from by decide] at hpi
      exact Option.noConfusion hpi
    have h2 : inst ≠ [] := by
      intro hc
      rw [hc, show parseVer [] = none from by decide] at hpi
      exact Option.noConfusion hpi
    simp [resolveDep, hinst, h1, h2, hne, hany, hpi, hps, hsat]

/-- Claim C5 witness: a missing installed version, a question-mark version, an
any specifier, and a satisfied specifier each produce no repair. -/
theorem c5_no_repair_guard_witness :
    resolveDep ⟨str "B", none, str ">=2.0"⟩ [] none = none ∧
    resolveDep ⟨str "B", some (str "?"), str ">=2.0"⟩ [] none = none ∧
    resolveDep ⟨str "B", some (str "1.0"), str "Any"⟩ [] none = none ∧
    resolveDep ⟨str "B", some (str "2.1.0"), str ">=2.0,<3.0"⟩ [] none = none :=
  ⟨(c5_no_repair_guard ⟨str "B", none, str ">=2.0"⟩ [] none).1 rfl,
   (c5_no_repair_guard ⟨str "B", some (str "?"), str ">=2.0"⟩ [] none).2.1
     (str "?") rfl (Or.inl rfl),
   (c5_no_repair_guard ⟨str "B", some (str "1.0"), str "Any"⟩ [] none).2.2.1
     (Or.inr (by decide)),
   (c5_no_repair_guard ⟨str "B", some (str "2.1.0"), str ">=2.0,<3.0"⟩ [] none).2.2.2
     (str "2.1.0") [2, 1, 0]
     [⟨SpecOp.geOp, str "2.0"⟩, ⟨SpecOp.ltOp, str "3.0"⟩]
     rfl (by decide) (by decide) (by decide) (by decide) (by decide)⟩

/-- Claim C4: for a violated forward dependency, the resolver chooses
max(py_v, req_v) by version order when both exist (the requirement pin wins
only when strictly greater), the sole existing candidate when only one exists,
and emits nothing when neither exists. -/
theorem c4_forward_choice_max (dep : DepEntry) (availEntries : List Str) (reqVer : Option Str)
    (inst : Str) (vInst : List Nat) (spec : List SpecClause)
    (hinst : dep.installed_version = some inst)
    (hq : inst ≠ str "?") (hne : inst ≠ [])
    (hspecNe : trimChars dep.required_version ≠ [])
    (hany : lowerChars (trimChars dep.required_version) ≠ str "any")
    (hpi : parseVer inst = some vInst)
    (hps : parseSpecSet (trimChars dep.required_version) = some spec)
    (hviol : specContains spec inst vInst = false) :
    (∀ py rq vp vr,
       find_lowest_valid_version availEntries (trimChars dep.required_version) =
         Except.ok (some py) → py ≠ [] →
       optTruthy reqVer = some rq →
       parseVer py = some vp → parseVer rq = some vr →
       resolveDep dep availEntries reqVer = some (if verLtB vp vr then rq else py) ∧
       verLeB vp (if verLtB vp vr then vr else vp) = true ∧
       verLeB vr (if verLtB vp vr then vr else vp) = true) ∧
    (∀ py, find_lowest_valid_version availEntries (trimChars dep.required_version) =
         Except.ok (some py) → py ≠ [] →
       optTruthy reqVer = none →
       resolveDep dep availEntries reqVer = some py) ∧
    (∀ rq, find_lowest_valid_version availEntries (trimChars dep.required_version) =
         Except.ok none →
       optTruthy reqVer = some rq →
       resolveDep dep availEntries reqVer = some rq) ∧
    (find_lowest_valid_version availEntries (trimChars dep.required_version) =
         Except.ok none →
       optTruthy reqVer = none →
       resolveDep dep availEntries reqVer = none) := by
  refine ⟨?_, ?_, ?_, ?_⟩
  · intro py rq vp vr hfl hpyne hrq hvp hvr
    simp [optTruthy] at hrq
    refine ⟨?_, ?_, ?_⟩
    · simp [resolveDep, hinst, hq, hne, hspecNe, hany, hpi, hps, hviol, hfl,
        optTruthy, hpyne, hrq, hvp, hvr]
    · by_cases hlt : verLtB vp vr = true
      · simp [hlt, verLtB_le hlt]
      · rw [Bool.not_eq_true] at hlt
        simp [hlt, verLeB_refl]
    · by_cases hlt : verLtB vp vr = true
      · simp [hlt, verLeB_refl]
      · rw [Bool.not_eq_true] at hlt
        simp [hlt, not_verLtB_le hlt]
  · intro py hfl hpyne hrq
    simp [optTruthy] at hrq
    simp [resolveDep, hinst, hq, hne, hspecNe, hany, hpi, hps, hviol, hfl,
      optTruthy, hpyne, hrq]
  · intro rq hfl hrq
    simp [optTruthy] at hrq
    simp [resolveDep, hinst, hq, hne, hspecNe, hany, hpi, hps, hviol, hfl,
      optTruthy, hrq]
  · intro hfl hrq
    simp [optTruthy] at hrq
    simp [resolveDep, hinst, hq, hne, hspecNe, hany, hpi, hps, hviol, hfl,
      optTruthy, hrq]

/-- Claim C4 witness: the spec seed scenario, B installed at 1.5.0 violating
the specifier: lowest satisfying index version 2.0.0, requirement pin 2.2.0,
chosen pin max(2.0.0, 2.2.0) = 2.2.0. -/
theorem c4_forward_choice_max_witness :
    resolveDep ⟨str "B", some (str "1.5.0"), str ">=2.0,<3.0"⟩
        [str "1.5.0", str "2.0.0", str "2.1.0", str "3.0.0"] (some (str "2.2.0")) =
      some (if verLtB [2, 0, 0] [2, 2, 0] then str "2.2.0" else str "2.0.0") ∧
    verLeB [2, 0, 0] (if verLtB [2, 0, 0] [2, 2, 0] then [2, 2, 0] else [2, 0, 0]) = true ∧
    verLeB [2, 2, 0] (if verLtB [2, 0, 0] [2, 2, 0] then [2, 2, 0] else [2, 0, 0]) = true :=
  (c4_forward_choice_max ⟨str "B", some (str "1.5.0"), str ">=2.0,<3.0"⟩
      [str "1.5.0", str "2.0.0", str "2.1.0", str "3.0.0"] (some (str "2.2.0"))
      (str "1.5.0") [1, 5, 0]
      [⟨SpecOp.geOp, str "2.0"⟩, ⟨SpecOp.ltOp, str "3.0"⟩]
      rfl (by decide) (by decide) (by decide) (by decide) (by decide) (by decide)
      (by decide)).1
    (str "2.0.0") (str "2.2.0") [2, 0, 0] [2, 2, 0]
    (by decide) (by decide) (by decide) (by decide) (by decide)

theorem engineLoop_iters_le {σ : Type} (w : World σ) :
    ∀ (fuel : Nat) (s : σ) (front : List Str) (hist : Hist) (it : Nat),
      engineIters (engineLoop w fuel s front hist it) ≤ it + fuel := by
  intro fuel
  induction fuel with
  | zero =>
    intro s front hist it
    simp [engineLoop, engineIters]
  | succ n ih =>
    intro s front hist it
    rw [engineLoop]
    split
    · simp [engineIters]
    · split
      · simp [engineIters]
      · split
        · simp [engineIters]
        · exact le_trans (ih _ _ _ _) (by omega)

/-- Claim C3: the engine terminates for every collaborator behaviour, executing
at most MAX_ITERATIONS = 10 iterations; an empty frontier stops it with no
further iteration, and an empty candidate set stops it after the current
iteration. -/
theorem c3_engine_terminates_bounded {σ : Type} (w : World σ) (s : σ) (initial : List Str)
    (hne : initial ≠ []) :
    engineIters (engineMain w s initial) ≤ MAX_ITERATIONS ∧
    (∀ (fuel : Nat) (s1 : σ) (hist : Hist) (it : Nat),
       engineLoop w (fuel + 1) s1 [] hist it = EngRes.done s1 hist it) ∧
    (∀ (fuel : Nat) (s1 : σ) (front : List Str) (hist : Hist) (it : Nat),
       front ≠ [] → iterCandidates w s1 front = [] →
       engineLoop w (fuel + 1) s1 front hist it = EngRes.done s1 hist (it + 1)) := by
  refine ⟨?_, ?_, ?_⟩
  · have h := engineLoop_iters_le w MAX_ITERATIONS s initial.dedup [] 0
    simpa [engineMain] using h
  · intro fuel s1 hist it
    rw [engineLoop]
    simp
  · intro fuel s1 front hist it hf hc
    rw [engineLoop]
    rw [if_neg (by simpa [List.isEmpty_iff] using hf)]
    simp [hc]

/-- Claim C3 witness: with trivial collaborators and one target, the engine
executes one iteration. -/
theorem c3_engine_terminates_bounded_witness :
    engineIters (engineMain idleWorld () [str "a"]) ≤ MAX_ITERATIONS :=
  (c3_engine_terminates_bounded idleWorld () [str "a"] (by decide)).1

/-- Claim C1 counterexample: the repair pin X==2.0.0 for target A fails to
install (X stays at 1.0.0), yet the engine's final upgrade history is empty:
no record at all is made for X, where the claim requires
upgradeHistory[X] = (1.0.0, "install failed").  X is also not re-probed: the
run ends after one iteration. -/
theorem c1_install_failure_claim_cex :
    engineMain failWorld failState [str "A"] = EngRes.done failState [] 1 ∧
    histGet [] (str "X") ≠ some (str "1.0.0", str "install failed") :=
  ⟨by decide, by decide⟩

/-- Claim C1 (amended): when the install of a resolved candidate fails, the
engine records nothing in the upgrade history, adds nothing to the next
frontier, and continues with the remaining candidates of the iteration (the
observation log alone receives a failed-install entry). -/
theorem c1_install_failure_skips {σ : Type} (w : World σ) (s s2 : σ) (c : Str)
    (rest : List Str) (hist : Hist) (name fullspec : Str)
    (hres : resolveCand w s c = Except.ok (some (name, fullspec)))
    (hfail : w.install s fullspec = (false, s2)) :
    processCands w s (c :: rest) hist =
      (processCands w s2 rest hist).map
        (fun r => (r.1, r.2.1, r.2.2.1,
          (⟨name, (optTruthy (w.installedVer s name)).getD (str "Not Installed"),
            false, none⟩ : Obs) :: r.2.2.2)) := by
  rw [processCands, hres]
  simp only [hfail]
  cases processCands w s2 rest hist with
  | none => rfl
  | some r => rfl

/-- Claim C1 witness: the failing-install world, one pin candidate; the history
passes through unchanged and only the log records the failure. -/
theorem c1_install_failure_skips_witness :
    processCands failWorld failState [str "X==2.0.0"] [] =
      (processCands failWorld failState ([] : List Str) []).map
        (fun r => (r.1, r.2.1, r.2.2.1,
          (⟨str "X", (optTruthy (failWorld.installedVer failState (str "X"))).getD
              (str "Not Installed"), false, none⟩ : Obs) :: r.2.2.2)) :=
  c1_install_failure_skips failWorld failState failState (str "X==2.0.0") [] []
    (str "X") (str "X==2.0.0") (by decide) (by decide)

theorem mem_setInsert (n m : Str) (l : List Str) :
    n ∈ setInsert m l ↔ n = m ∨ n ∈ l := by
  unfold setInsert
  split
  · rename_i hm
    constructor
    · exact fun h => Or.inr h
    · rintro (rfl | h)
      · exact hm
      · exact h
  · simp [List.mem_cons]

theorem processCands_nf_iff {σ : Type} (w : World σ) :
    ∀ (cs : List Str) (s : σ) (hist : Hist) (s2 : σ) (hist2 : Hist)
      (nf : List Str) (log : List Obs),
      processCands w s cs hist = some (s2, hist2, nf, log) →
      ∀ n, (n ∈ nf ↔ ∃ o ∈ log, o.name = n ∧ o.instOk = true ∧
        ∃ p, o.post = some p ∧ o.prev ≠ p) := by
  intro cs
  induction cs with
  | nil =>
    intro s hist s2 hist2 nf log h n
    rw [processCands] at h
    injection h with h
    injection h with h1 h
    injection h with h2 h
    injection h with h3 h4
    rw [← h3, ← h4]
    simp
  | cons c rest ih =>
    intro s hist s2 hist2 nf log h n
    rw [processCands] at h
    cases hres : resolveCand w s c with
    | error e =>
      rw [hres] at h
      exact absurd h (by simp)
    | ok o =>
      rw [hres] at h
      cases o with
      | none => exact ih s hist s2 hist2 nf log h n
      | some pr =>
        obtain ⟨name, fullspec⟩ := pr
        simp only at h
        by_cases hok : (w.install s fullspec).1 = true
        · rw [if_pos hok] at h
          cases hrec : processCands w (w.install s fullspec).2 rest
              (histSet hist name
                ((optTruthy (w.installedVer s name)).getD (str "Not Installed"))
                ((optTruthy (w.installedVer (w.install s fullspec).2 name)).getD
                  (str "Installation failed"))) with
          | none =>
            rw [hrec] at h
            exact absurd h (by simp)
          | some r =>
            obtain ⟨s3, hist3, nf3, log3⟩ := r
            rw [hrec] at h
            injection h with h
            injection h with h1 h
            injection h with h2 h
            injection h with h3 h4
            have ihr := ih _ _ _ _ _ _ hrec n
            rw [← h3, ← h4]
            by_cases hch : ((optTruthy (w.installedVer s name)).getD (str "Not Installed") !=
                (optTruthy (w.installedVer (w.install s fullspec).2 name)).getD
                  (str "Installation failed")) = true
            · rw [if_pos hch]
              rw [mem_setInsert, ihr]
              constructor
              · rintro (rfl | ⟨o, ho, hon, hoo, p, hop, hne⟩)
                · refine ⟨_, List.mem_cons_self _ _, rfl, rfl, _, rfl, ?_⟩
                  simpa using hch
                · exact ⟨o, List.mem_cons_of_mem _ ho, hon, hoo, p, hop, hne⟩
              · rintro ⟨o, ho, hon, hoo, p, hop, hne⟩
                rcases List.mem_cons.1 ho with rfl | ho2
                · exact Or.inl hon.symm
                · exact Or.inr ⟨o, ho2, hon, hoo, p, hop, hne⟩
            · rw [if_neg hch]
              rw [ihr]
              constructor
              · rintro ⟨o, ho, hon, hoo, p, hop, hne⟩
                exact ⟨o, List.mem_cons_of_mem _ ho, hon, hoo, p, hop, hne⟩
              · rintro ⟨o, ho, hon, hoo, p, hop, hne⟩
                rcases List.mem_cons.1 ho with rfl | ho2
                · simp only [Obs.post] at hop
                  injection hop with hop
                  rw [← hop] at hne
                  simp only [bne_iff_ne, ne_eq, not_not] at hch
                  exact absurd (by simpa [Obs.prev] using hch) hne
                · exact ⟨o, ho2, hon, hoo, p, hop, hne⟩
        · rw [Bool.not_eq_true] at hok
          rw [if_neg (by simp [hok])] at h
          cases hrec : processCands w (w.install s fullspec).2 rest hist with
          | none =>
            rw [hrec] at h
            exact absurd h (by simp)
          | some r =>
            obtain ⟨s3, hist3, nf3, log3⟩ := r
            rw [hrec] at h
            injection h with h
            injection h with h1 h
            injection h with h2 h
            injection h with h3 h4
            have ihr := ih _ _ _ _ _ _ hrec n
            rw [← h3, ← h4, ihr]
            constructor
            · rintro ⟨o, ho, hon, hoo, p, hop, hne⟩
              exact ⟨o, List.mem_cons_of_mem _ ho, hon, hoo, p, hop, hne⟩
            · rintro ⟨o, ho, hon, hoo, p, hop, hne⟩
              rcases List.mem_cons.1 ho with rfl | ho2
              · exact absurd hoo (by simp [Obs.instOk])
              · exact ⟨o, ho2, hon, hoo, p, hop, hne⟩

/-- Claim C2: after one iteration's install loop, the next frontier is exactly
the set of names whose installed version observed just before their install
differs from the version observed just after (an after-observation exists only
for successful installs); and that set is precisely the frontier the loop
passes to the next iteration. -/
theorem c2_next_frontier_exact {σ : Type} (w : World σ) :
    (∀ (s : σ) (cs : List Str) (hist : Hist) (s2 : σ) (hist2 : Hist)
       (nf : List Str) (log : List Obs),
       processCands w s cs hist = some (s2, hist2, nf, log) →
       ∀ n, (n ∈ nf ↔ ∃ o ∈ log, o.name = n ∧ o.instOk = true ∧
         ∃ p, o.post = some p ∧ o.prev ≠ p)) ∧
    (∀ (fuel : Nat) (s : σ) (front : List Str) (hist : Hist) (it : Nat)
       (s2 : σ) (hist2 : Hist) (nf : List Str) (log : List Obs),
       front ≠ [] → iterCandidates w s front ≠ [] →
       processCands w s (iterCandidates w s front) hist = some (s2, hist2, nf, log) →
       engineLoop w (fuel + 1) s front hist it = engineLoop w fuel s2 nf hist2 (it + 1)) := by
  refine ⟨fun s cs => processCands_nf_iff w cs s, ?_⟩
  intro fuel s front hist it s2 hist2 nf log hf hc hp
  rw [engineLoop]
  rw [if_neg (by simpa [List.isEmpty_iff] using hf)]
  rw [if_neg (by simpa [List.isEmpty_iff] using hc)]
  rw [hp]

/-- Claim C2 witness: in the concrete world the pin X==2.0.0 installs
successfully, the observed version changes from 1.0.0 to 2.0.0, and X is
exactly the next frontier. -/
theorem c2_next_frontier_exact_witness :
    str "X" ∈ [str "X"] ↔
      ∃ o ∈ [(⟨str "X", str "1.0.0", true, some (str "2.0.0")⟩ : Obs)],
        o.name = str "X" ∧ o.instOk = true ∧
        ∃ p, o.post = some p ∧ o.prev ≠ p :=
  (c2_next_frontier_exact okWorld).1 failState [str "X==2.0.0"] []
    [(str "X", str "2.0.0")] [(str "X", str "1.0.0", str "2.0.0")] [str "X"]
    [⟨str "X", str "1.0.0", true, some (str "2.0.0")⟩] (by decide) (str "X")

theorem getLast?_cons_or (a : Str) (l : List Str) (o : Option Str) :
    ((a :: l).getLast?).or o = (l.getLast?).or (some a) := by
  cases l with
  | nil => simp [Option.or]
  | cons y ys =>
    rw [List.getLast?_cons_cons]
    cases hgl : (y :: ys).getLast? with
    | none => simp [List.getLast?_eq_none_iff] at hgl
    | some z => simp [Option.or]

theorem setLoop_char (pkg new : Str) :
    ∀ (lines : List Str) (u f : Bool) (o : Option Str),
      setLoop pkg new u f o lines =
        (u || (matchedVersions pkg lines).any (fun v => v != new),
         f || !(matchedVersions pkg lines).isEmpty,
         ((matchedVersions pkg lines).getLast?).or o,
         lines.map (rewriteLine pkg new)) := by
  intro lines
  induction lines with
  | nil =>
    intro u f o
    simp [setLoop, matchedVersions, Option.or]
  | cons l ls ih =>
    intro u f o
    rw [setLoop]
    cases hm : matchPinLine pkg l with
    | some m =>
      obtain ⟨pre, asWritten, oldv, suf⟩ := m
      have hmv : matchedVersions pkg (l :: ls) = oldv :: matchedVersions pkg ls := by
        simp [matchedVersions, List.filterMap_cons, hm]
      have hrw : rewriteLine pkg new l =
          (if oldv != new then pre ++ asWritten ++ str "==" ++ new ++ suf else l) := by
        simp [rewriteLine, hm]
      simp only [ih, hmv, hrw, getLast?_cons_or, List.any_cons, List.map_cons,
        List.isEmpty_cons, Bool.not_false, Bool.true_or, Bool.or_true, Bool.or_assoc]
    | none =>
      have hmv : matchedVersions pkg (l :: ls) = matchedVersions pkg ls := by
        simp [matchedVersions, List.filterMap_cons, hm]
      have hrw : rewriteLine pkg new l = l := by
        simp [rewriteLine, hm]
      rw [ih]
      simp [hmv, hrw]

theorem map_rewrite_eq_self (pkg new : Str) (lines : List Str)
    (h : ∀ v ∈ matchedVersions pkg lines, v = new) :
    lines.map (rewriteLine pkg new) = lines := by
  have hcongr : ∀ l ∈ lines, rewriteLine pkg new l = l := by
    intro l hl
    unfold rewriteLine
    cases hm : matchPinLine pkg l with
    | none => rfl
    | some m =>
      obtain ⟨pre, asWritten, oldv, suf⟩ := m
      have hov : oldv ∈ matchedVersions pkg lines := by
        simp only [matchedVersions, List.mem_filterMap]
        exact ⟨l, hl, by rw [hm]; rfl⟩
      have hoe : oldv = new := h oldv hov
      simp [hoe]
  rw [List.map_congr_left hcongr |>.trans (List.map_id _)]

/-- Claim C8 counterexample: two matching list items at versions 1.0 and 2.0
updated to 3.0: both lines are rewritten, but the returned old version is 2.0,
the version of the last matching line, not 1.0 from the first matching line as
the claim states. -/
theorem c8_updated_old_version_cex :
    set_package_version (str "foo") (str "3.0")
        [str "  - Foo==1.0", str "  - Foo==2.0"] =
      (SetStatus.updated (str "2.0"), [str "  - Foo==3.0", str "  - Foo==3.0"]) ∧
    matchedVersions (str "foo") [str "  - Foo==1.0", str "  - Foo==2.0"] =
      [str "1.0", str "2.0"] ∧
    str "2.0" ≠ str "1.0" :=
  ⟨by decide, by decide, by decide⟩

/-- Claim C8 (amended): when some LIST_ITEM or SINGLE_ITEM occurrence carries a
version different from the target, every matching line with a differing version
is rewritten (original casing kept) and the result is updated carrying the old
version captured from the last matching line before the rewrite; occurrences
only at the target version give unchanged; no occurrence gives not_found. -/
theorem c8_taskset_spec (pkg new : Str) (lines : List Str) :
    ((matchedVersions pkg lines).any (fun v => v != new) = true →
       (set_package_version pkg new lines).1 =
         SetStatus.updated (((matchedVersions pkg lines).getLast?).getD [])) ∧
    (matchedVersions pkg lines ≠ [] →
       (∀ v ∈ matchedVersions pkg lines, v = new) →
       set_package_version pkg new lines = (SetStatus.unchanged, lines)) ∧
    (matchedVersions pkg lines = [] →
       set_package_version pkg new lines = (SetStatus.not_found, lines)) ∧
    (set_package_version pkg new lines).2 = lines.map (rewriteLine pkg new) := by
  have hchar := setLoop_char pkg new lines false false none
  refine ⟨?_, ?_, ?_, ?_⟩
  · intro hany
    unfold set_package_version
    rw [hchar]
    simp [hany, Option.or_none]
  · intro hne hall
    have hany : (matchedVersions pkg lines).any (fun v => v != new) = false := by
      rw [List.any_eq_false]
      intro v hv
      simp [hall v hv]
    unfold set_package_version
    rw [hchar]
    have hemp : (matchedVersions pkg lines).isEmpty = false := by
      simpa [List.isEmpty_iff] using hne
    simp [hany, hemp, map_rewrite_eq_self pkg new lines hall]
  · intro hmv
    unfold set_package_version
    rw [hchar]
    have hall : ∀ v ∈ matchedVersions pkg lines, v = new := by
      rw [hmv]; intro v hv; cases hv
    simp [hmv, map_rewrite_eq_self pkg new lines hall]
  · unfold set_package_version
    rw [hchar]
    by_cases h1 : ((matchedVersions pkg lines).any fun v => v != new) = true
    · simp [h1]
    · rw [Bool.not_eq_true] at h1
      by_cases h2 : (matchedVersions pkg lines).isEmpty = true
      · simp [h1, h2]
      · rw [Bool.not_eq_true] at h2
        simp [h1, h2]

/-- Claim C8 witness: one matching line at 1.0 set to 3.0 reports updated with
old version 1.0. -/
theorem c8_taskset_spec_witness :
    (set_package_version (str "foo") (str "3.0") [str "  - Foo==1.0"]).1 =
      SetStatus.updated
        (((matchedVersions (str "foo") [str "  - Foo==1.0"]).getLast?).getD []) :=
  (c8_taskset_spec (str "foo") (str "3.0") [str "  - Foo==1.0"]).1 (by decide)

/-- Claim C10: the task-manifest editor writes the file only on the updated
path: for the unchanged, not_found and error outcomes the file content is
unchanged, and in the unchanged case even the rewritten line list the loop
computed equals the original lines. -/
theorem c10_no_write_unless_updated (pkg new : Str) (file : Option (List Str))
    (readOk : Bool) :
    (∀ st out, setPkgVersionFS pkg new file readOk = (st, out) →
       (∀ old, st ≠ SetStatus.updated old) → out = file) ∧
    (∀ lines, (setLoop pkg new false false none lines).1 = false →
       (setLoop pkg new false false none lines).2.2.2 = lines) := by
  constructor
  · intro st out h hne
    cases file with
    | none =>
      unfold setPkgVersionFS at h
      injection h with h1 h2
      rw [← h2]
    | some lines =>
      unfold setPkgVersionFS at h
      by_cases hro : readOk = true
      · rw [hro] at h
        simp only [Bool.not_true] at h
        rcases hsp : set_package_version pkg new lines with ⟨st2, out2⟩
        rw [hsp] at h
        cases st2 with
        | updated old =>
          simp only at h
          injection h with h1 h2
          exact absurd h1.symm (hne old)
        | unchanged =>
          simp only at h
          injection h with h1 h2
          rw [← h2]
        | not_found =>
          simp only at h
          injection h with h1 h2
          rw [← h2]
        | ioError =>
          simp only at h
          injection h with h1 h2
          rw [← h2]
      · rw [Bool.not_eq_true] at hro
        rw [hro] at h
        simp only [Bool.not_false, if_pos] at h
        injection h with h1 h2
        rw [← h2]
  · intro lines hupd
    rw [setLoop_char pkg new lines false false none] at hupd ⊢
    simp only [Bool.false_or] at hupd
    have hall : ∀ v ∈ matchedVersions pkg lines, v = new := by
      rw [List.any_eq_false] at hupd
      intro v hv
      have := hupd v hv
      simpa using this
    exact map_rewrite_eq_self pkg new lines hall

/-- Claim C10 witness: a file without the package: not_found and the content
untouched. -/
theorem c10_no_write_unless_updated_witness :
    (some [str "bar==1.0"] : Option (List Str)) = some [str "bar==1.0"] :=
  (c10_no_write_unless_updated (str "foo") (str "2.0") (some [str "bar==1.0"]) true).1
    SetStatus.not_found (some [str "bar==1.0"]) (by decide)
    (fun _ h => SetStatus.noConfusion h)

/-!
String facts for the manifest-store round trip (claim C7): how strip behaves
on concatenations and how the double-equals split interacts with them.
-/

theorem dropWhile_idem (p : Char → Bool) (l : Str) :
    (l.dropWhile p).dropWhile p = l.dropWhile p := by
  induction l with
  | nil => rfl
  | cons c t ih =>
    rw [List.dropWhile_cons]
    split
    · exact ih
    · rename_i hc
      rw [List.dropWhile_cons, if_neg hc]

theorem dropTrailingSp_isPref (l : Str) : dropTrailingSp l <+: l := by
  induction l with
  | nil => exact List.prefix_refl []
  | cons c t ih =>
    rw [dropTrailingSp]
    split
    · exact List.nil_prefix
    · exact List.cons_prefix_cons.2 ⟨rfl, ih⟩

theorem length_dropTrailingSp_le (l : Str) : (dropTrailingSp l).length ≤ l.length :=
  (dropTrailingSp_isPref l).length_le

theorem trim_eq_self_parts {l : Str} (h : trimChars l = l) :
    l.dropWhile isSpaceC = l ∧ dropTrailingSp l = l := by
  unfold trimChars at h
  have h1 : (dropTrailingSp (l.dropWhile isSpaceC)).length ≤ (l.dropWhile isSpaceC).length :=
    length_dropTrailingSp_le _
  have h2 : (l.dropWhile isSpaceC).length ≤ l.length :=
    (List.dropWhile_suffix isSpaceC).sublist.length_le
  have h3 : l.length = (dropTrailingSp (l.dropWhile isSpaceC)).length := by rw [h]
  have hlen : (l.dropWhile isSpaceC).length = l.length := by omega
  have hdw : l.dropWhile isSpaceC = l :=
    (List.dropWhile_suffix isSpaceC).eq_of_length hlen
  rw [hdw] at h
  exact ⟨hdw, h⟩

theorem dropWhile_eq_self_head {p : Char → Bool} {c : Char} {t : Str}
    (h : (c :: t).dropWhile p = c :: t) : p c = false := by
  by_contra hc
  rw [Bool.not_eq_false] at hc
  rw [List.dropWhile_cons, if_pos hc] at h
  have hlen := congrArg List.length h
  have hle : (t.dropWhile p).length ≤ t.length :=
    (List.dropWhile_suffix p).sublist.length_le
  simp only [List.length_cons] at hlen
  omega

theorem dropWhile_append_eq_self {p : Char → Bool} {l : Str} (hl : l.dropWhile p = l)
    (hne : l ≠ []) (m : Str) : (l ++ m).dropWhile p = l ++ m := by
  cases l with
  | nil => exact absurd rfl hne
  | cons c t =>
    have hc : p c = false := dropWhile_eq_self_head hl
    rw [List.cons_append, List.dropWhile_cons, if_neg (by simp [hc])]

theorem dropTrailingSp_append {b : Str} (hb : dropTrailingSp b ≠ []) (a : Str) :
    dropTrailingSp (a ++ b) = a ++ dropTrailingSp b := by
  induction a with
  | nil => rfl
  | cons c t ih =>
    rw [List.cons_append, dropTrailingSp, ih]
    have hne : (t ++ dropTrailingSp b).isEmpty = false := by
      cases hd : t ++ dropTrailingSp b with
      | nil =>
        rcases List.append_eq_nil.1 hd with ⟨_, h2⟩
        exact absurd h2 hb
      | cons x xs => rfl
    simp [hne]

theorem dropTrailingSp_idem (l : Str) : dropTrailingSp (dropTrailingSp l) = dropTrailingSp l := by
  induction l with
  | nil => rfl
  | cons c t ih =>
    rw [dropTrailingSp]
    split
    · rfl
    · rename_i hcond
      rw [dropTrailingSp, ih]
      split
      · rename_i hcond2
        exact absurd hcond2 hcond
      · rfl

theorem dropWhile_dropTrailingSp {l : Str} (h : l.dropWhile isSpaceC = l) :
    (dropTrailingSp l).dropWhile isSpaceC = dropTrailingSp l := by
  cases l with
  | nil => rfl
  | cons c t =>
    have hc : isSpaceC c = false := dropWhile_eq_self_head h
    rw [dropTrailingSp]
    split
    · rfl
    · rw [List.dropWhile_cons, if_neg (by simp [hc])]

theorem trim_idem (l : Str) : trimChars (trimChars l) = trimChars l := by
  unfold trimChars
  rw [dropWhile_dropTrailingSp (dropWhile_idem isSpaceC l), dropTrailingSp_idem]

theorem trim_concat {k v : Str} (hk : trimChars k = k) (hkne : k ≠ [])
    (hv : trimChars v = v) (hvne : v ≠ []) :
    trimChars (k ++ '=' :: '=' :: v) = k ++ '=' :: '=' :: v := by
  obtain ⟨hk1, _⟩ := trim_eq_self_parts hk
  obtain ⟨_, hv2⟩ := trim_eq_self_parts hv
  unfold trimChars
  rw [dropWhile_append_eq_self hk1 hkne]
  have hv3 : dropTrailingSp ('=' :: '=' :: v) = '=' :: '=' :: v := by
    have hbne : dropTrailingSp v ≠ [] := by rw [hv2]; exact hvne
    have h1 : dropTrailingSp ('=' :: '=' :: v) = ['=', '='] ++ dropTrailingSp v := by
      have := dropTrailingSp_append hbne ['=', '=']
      simpa using this
    rw [h1, hv2]
    rfl
  have hbne2 : dropTrailingSp ('=' :: '=' :: v) ≠ [] := by
    rw [hv3]
    exact List.cons_ne_nil _ _
  rw [dropTrailingSp_append hbne2 k, hv3]

theorem splitEq_cons_ne {c : Char} (hc : c ≠ '=') (rest : Str) :
    splitEq (c :: rest) =
      (match splitEq rest with
       | h :: t => (c :: h) :: t
       | [] => [[c]]) := by
  rw [splitEq.eq_def]
  split
  · rename_i heq
    exact absurd heq (by simp)
  · rename_i heq
    rw [List.cons.injEq] at heq
    exact absurd heq.1 hc
  · rename_i c2 rest2 _ heq
    rw [List.cons.injEq] at heq
    rw [heq.1, heq.2]

theorem splitEq_ne_nil (l : Str) : splitEq l ≠ [] := by
  rw [splitEq.eq_def]
  split
  · exact List.cons_ne_nil _ _
  · exact List.cons_ne_nil _ _
  · split
    · exact List.cons_ne_nil _ _
    · exact List.cons_ne_nil _ _

theorem splitEq_no_eq : ∀ {l : Str}, '=' ∉ l → splitEq l = [l]
  | [], _ => rfl
  | c :: rest, h => by
    have hc : c ≠ '=' := fun hce => h (by rw [hce]; exact List.mem_cons_self _ _)
    have hrest : '=' ∉ rest := fun hr => h (List.mem_cons_of_mem _ hr)
    rw [splitEq_cons_ne hc, splitEq_no_eq hrest]

theorem splitEq_concat : ∀ {k : Str}, '=' ∉ k → ∀ v : Str,
    splitEq (k ++ '=' :: '=' :: v) = k :: splitEq v
  | [], _, v => by
    rw [List.nil_append, splitEq]
  | c :: k2, h, v => by
    have hc : c ≠ '=' := fun hce => h (by rw [hce]; exact List.mem_cons_self _ _)
    have hk2 : '=' ∉ k2 := fun hr => h (List.mem_cons_of_mem _ hr)
    rw [List.cons_append, splitEq_cons_ne hc, splitEq_concat hk2 v]

theorem splitEq1_of_two {t p vv : Str} (h : splitEq t = [p, vv]) :
    splitEq1 t = some (p, vv) := by
  unfold splitEq1
  rw [h]
  rfl

/-!
Dictionary facts (the Python dict model) and the requirement-reading loop.
-/

theorem lookupD_cons (e : Str × Str) (d : List (Str × Str)) (k : Str) :
    lookupD (e :: d) k = if e.1 == k then some e.2 else lookupD d k := by
  unfold lookupD
  rw [List.find?_cons]
  by_cases he : (e.1 == k) = true
  · rw [he]
    rfl
  · rw [Bool.not_eq_true] at he
    rw [he]
    rfl

theorem lookupD_map_set : ∀ (d : List (Str × Str)) (k v : Str),
    d.any (fun e => e.1 == k) = true →
    lookupD (d.map (fun e => if e.1 == k then (k, v) else e)) k = some v
  | [], k, v, h => by simp at h
  | e :: rest, k, v, h => by
    rw [List.map_cons]
    by_cases he : (e.1 == k) = true
    · rw [if_pos he, lookupD_cons]
      simp
    · rw [if_neg he, lookupD_cons, if_neg he]
      have hrest : rest.any (fun e => e.1 == k) = true := by
        rw [List.any_cons] at h
        rcases Bool.or_eq_true_iff.1 h with h1 | h1
        · exact absurd h1 he
        · exact h1
      exact lookupD_map_set rest k v hrest

theorem lookupD_map_other : ∀ (d : List (Str × Str)) (k v k2 : Str), k2 ≠ k →
    lookupD (d.map (fun e => if e.1 == k then (k, v) else e)) k2 = lookupD d k2
  | [], _, _, _, _ => rfl
  | e :: rest, k, v, k2, hne => by
    rw [List.map_cons]
    by_cases he : (e.1 == k) = true
    · have he1 : e.1 = k := by simpa using he
      rw [if_pos he, lookupD_cons, lookupD_cons]
      rw [if_neg (by simp [Ne.symm hne]), if_neg (by simp [he1, Ne.symm hne])]
      exact lookupD_map_other rest k v k2 hne
    · rw [if_neg he, lookupD_cons, lookupD_cons]
      by_cases he2 : (e.1 == k2) = true
      · rw [if_pos he2, if_pos he2]
      · rw [if_neg he2, if_neg he2]
        exact lookupD_map_other rest k v k2 hne

theorem lookupD_append_single : ∀ (d : List (Str × Str)) (k v : Str),
    d.any (fun e => e.1 == k) = false →
    lookupD (d ++ [(k, v)]) k = some v
  | [], k, v, _ => by
    rw [List.nil_append, lookupD_cons]
    simp
  | e :: rest, k, v, h => by
    rw [List.any_cons, Bool.or_eq_false_iff] at h
    rw [List.cons_append, lookupD_cons, if_neg (by simp [h.1])]
    exact lookupD_append_single rest k v h.2

theorem lookupD_append_other : ∀ (d : List (Str × Str)) (k v k2 : Str), k2 ≠ k →
    lookupD (d ++ [(k, v)]) k2 = lookupD d k2
  | [], k, v, k2, hne => by
    rw [List.nil_append, lookupD_cons, if_neg (by simp [Ne.symm hne])]
  | e :: rest, k, v, k2, hne => by
    rw [List.cons_append, lookupD_cons, lookupD_cons]
    by_cases he2 : (e.1 == k2) = true
    · rw [if_pos he2, if_pos he2]
    · rw [if_neg he2, if_neg he2]
      exact lookupD_append_other rest k v k2 hne

theorem lookupD_dictSet_same (d : List (Str × Str)) (k v : Str) :
    lookupD (dictSet d k v) k = some v := by
  unfold dictSet
  split
  · rename_i hany
    exact lookupD_map_set d k v hany
  · rename_i hany
    exact lookupD_append_single d k v (Bool.eq_false_iff.mpr hany)

theorem lookupD_dictSet_other (d : List (Str × Str)) (k v k2 : Str) (hne : k2 ≠ k) :
    lookupD (dictSet d k v) k2 = lookupD d k2 := by
  unfold dictSet
  split
  · exact lookupD_map_other d k v k2 hne
  · exact lookupD_append_other d k v k2 hne

theorem mem_dictSet {d : List (Str × Str)} {k v : Str} :
    ∀ e ∈ dictSet d k v, e = (k, v) ∨ e ∈ d := by
  unfold dictSet
  split
  · intro e he
    rcases List.mem_map.1 he with ⟨e0, he0, heq⟩
    by_cases h0 : (e0.1 == k) = true
    · rw [if_pos h0] at heq
      exact Or.inl heq.symm
    · rw [if_neg h0] at heq
      exact Or.inr (heq ▸ he0)
  · intro e he
    rcases List.mem_append.1 he with h | h
    · exact Or.inr h
    · simp only [List.mem_singleton] at h
      exact Or.inl h

theorem dictSet_forall (P : Str × Str → Prop) {d : List (Str × Str)} {k v : Str}
    (hall : ∀ e ∈ d, P e) (hkv : P (k, v)) : ∀ e ∈ dictSet d k v, P e := by
  intro e he
  rcases mem_dictSet e he with rfl | hmem
  · exact hkv
  · exact hall e hmem

theorem dictSet_exists (Q : Str → Prop) {d : List (Str × Str)} {k v : Str}
    (h : Q k ∨ ∃ e ∈ d, Q e.1) : ∃ e ∈ dictSet d k v, Q e.1 := by
  unfold dictSet
  split
  · rename_i hany
    rcases h with hk | ⟨e, he, hQ⟩
    · rcases List.any_eq_true.1 hany with ⟨e0, he0, hbeq⟩
      exact ⟨(k, v), List.mem_map.2 ⟨e0, he0, by rw [if_pos hbeq]⟩, hk⟩
    · by_cases hek : (e.1 == k) = true
      · have hek2 : e.1 = k := by simpa using hek
        exact ⟨(k, v), List.mem_map.2 ⟨e, he, by rw [if_pos hek]⟩, by rw [← hek2] at *; exact hQ⟩
      · exact ⟨e, List.mem_map.2 ⟨e, he, by rw [if_neg hek]⟩, hQ⟩
  · rcases h with hk | ⟨e, he, hQ⟩
    · exact ⟨(k, v), List.mem_append.2 (Or.inr (by simp)), hk⟩
    · exact ⟨e, List.mem_append.2 (Or.inl he), hQ⟩

theorem readReqs_entries (P : Str × Str → Prop) :
    ∀ (ls : List Str) (acc : List (Str × Str)),
      (∀ e ∈ acc, P e) →
      (∀ l ∈ ls, ∀ p vv, splitEq (trimChars l) = [p, vv] → P (trimChars p, trimChars vv)) →
      ∀ e ∈ readReqs acc ls, P e := by
  intro ls
  induction ls with
  | nil =>
    intro acc hacc _ e he
    rw [readReqs] at he
    exact hacc e he
  | cons l ls2 ih =>
    intro acc hacc hlines e he
    rw [readReqs] at he
    by_cases ht : (trimChars l).isEmpty = true
    · rw [if_pos ht] at he
      exact ih acc hacc (fun l2 hl2 => hlines l2 (List.mem_cons_of_mem _ hl2)) e he
    · rw [if_neg ht] at he
      rcases hsp : splitEq (trimChars l) with _ | ⟨p1, rest1⟩
      · exact absurd hsp (splitEq_ne_nil _)
      · rcases rest1 with _ | ⟨p2, rest2⟩
        · rw [hsp] at he
          exact ih acc hacc (fun l2 hl2 => hlines l2 (List.mem_cons_of_mem _ hl2)) e he
        · rcases rest2 with _ | ⟨p3, rest3⟩
          · rw [hsp] at he
            exact ih _
              (dictSet_forall P hacc (hlines l (List.mem_cons_self _ _) p1 p2 hsp))
              (fun l2 hl2 => hlines l2 (List.mem_cons_of_mem _ hl2)) e he
          · rw [hsp] at he
            exact hacc e he

theorem readReqs_covers (Q : Str → Prop) :
    ∀ (ls : List Str) (acc : List (Str × Str)),
      (∀ l ∈ ls, (splitEq (trimChars l)).length ≤ 2) →
      ((∃ e ∈ acc, Q e.1) ∨
        ∃ l ∈ ls, ∃ p vv, splitEq (trimChars l) = [p, vv] ∧ Q (trimChars p)) →
      ∃ e ∈ readReqs acc ls, Q e.1 := by
  intro ls
  induction ls with
  | nil =>
    intro acc _ hdisj
    rw [readReqs]
    rcases hdisj with h | ⟨l, hl, _⟩
    · exact h
    · cases hl
  | cons l ls2 ih =>
    intro acc hlen hdisj
    rw [readReqs]
    by_cases ht : (trimChars l).isEmpty = true
    · rw [if_pos ht]
      refine ih acc (fun l2 hl2 => hlen l2 (List.mem_cons_of_mem _ hl2)) ?_
      rcases hdisj with hacc | ⟨l2, hl2, p, vv, hsp, hQ⟩
      · exact Or.inl hacc
      · rcases List.mem_cons.1 hl2 with rfl | hl2b
        · have htn : trimChars l2 = [] := by simpa [List.isEmpty_iff] using ht
          rw [htn] at hsp
          rw [splitEq] at hsp
          exact absurd hsp (by simp)
        · exact Or.inr ⟨l2, hl2b, p, vv, hsp, hQ⟩
    · rw [if_neg ht]
      rcases hsp0 : splitEq (trimChars l) with _ | ⟨p1, rest1⟩
      · exact absurd hsp0 (splitEq_ne_nil _)
      · rcases rest1 with _ | ⟨p2, rest2⟩
        · show ∃ e ∈ readReqs acc ls2, Q e.1
          refine ih acc (fun l2 hl2 => hlen l2 (List.mem_cons_of_mem _ hl2)) ?_
          rcases hdisj with hacc | ⟨l2, hl2, p, vv, hsp, hQ⟩
          · exact Or.inl hacc
          · rcases List.mem_cons.1 hl2 with rfl | hl2b
            · rw [hsp0] at hsp
              exact absurd hsp (by simp)
            · exact Or.inr ⟨l2, hl2b, p, vv, hsp, hQ⟩
        · rcases rest2 with _ | ⟨p3, rest3⟩
          · show ∃ e ∈ readReqs (dictSet acc (trimChars p1) (trimChars p2)) ls2, Q e.1
            refine ih _ (fun l2 hl2 => hlen l2 (List.mem_cons_of_mem _ hl2)) ?_
            rcases hdisj with hacc | ⟨l2, hl2, p, vv, hsp, hQ⟩
            · exact Or.inl (dictSet_exists Q (Or.inr hacc))
            · rcases List.mem_cons.1 hl2 with rfl | hl2b
              · rw [hsp0] at hsp
                rw [List.cons.injEq, List.cons.injEq] at hsp
                obtain ⟨rfl, rfl, _⟩ := hsp
                exact Or.inl (dictSet_exists Q (Or.inl hQ))
              · exact Or.inr ⟨l2, hl2b, p, vv, hsp, hQ⟩
          · have hcontra := hlen l (List.mem_cons_self _ _)
            rw [hsp0] at hcontra
            simp at hcontra

theorem foldLower_lookup (nL v : Str) :
    ∀ (pkgs acc : List (Str × Str)),
      (∀ e ∈ pkgs, lowerChars e.1 = nL → e.2 = v) →
      (lookupD acc nL = some v ∨
        (lookupD acc nL = none ∧ ∃ e ∈ pkgs, lowerChars e.1 = nL)) →
      lookupD (pkgs.foldl (fun acc2 e => dictSet acc2 (lowerChars e.1) e.2) acc) nL =
        some v := by
  intro pkgs
  induction pkgs with
  | nil =>
    intro acc _ hdisj
    rw [List.foldl_nil]
    rcases hdisj with h | ⟨_, e, he, _⟩
    · exact h
    · cases he
  | cons e rest ih =>
    intro acc hall hdisj
    rw [List.foldl_cons]
    by_cases hek : lowerChars e.1 = nL
    · refine ih _ (fun e2 he2 h2 => hall e2 (List.mem_cons_of_mem _ he2) h2) (Or.inl ?_)
      rw [hek, lookupD_dictSet_same]
      rw [hall e (List.mem_cons_self _ _) hek]
    · have hpres : lookupD (dictSet acc (lowerChars e.1) e.2) nL = lookupD acc nL :=
        lookupD_dictSet_other acc (lowerChars e.1) e.2 nL (fun hc => hek hc.symm)
      refine ih _ (fun e2 he2 h2 => hall e2 (List.mem_cons_of_mem _ he2) h2) ?_
      rcases hdisj with h | ⟨hnone, e2, he2, hQ⟩
      · exact Or.inl (by rw [hpres]; exact h)
      · refine Or.inr ⟨by rw [hpres]; exact hnone, ?_⟩
        rcases List.mem_cons.1 he2 with rfl | hmem
        · exact absurd hQ hek
        · exact ⟨e2, hmem, hQ⟩

/-!
The update_package_version_in_file line rewrite and the round trip through
get_package_version.
-/

theorem dropTrailingSp_cons_nonspace {c : Char} (hc : isSpaceC c = false) (xs : Str) :
    dropTrailingSp (c :: xs) = c :: dropTrailingSp xs := by
  rw [dropTrailingSp]
  simp [hc]

theorem trimChars_hash_head (h2 : Str) :
    trimChars ('#' :: h2) = '#' :: dropTrailingSp h2 := by
  unfold trimChars
  rw [List.dropWhile_cons, if_neg (by decide), dropTrailingSp_cons_nonspace (by decide)]

theorem splitEq_head_hash {t p vv : Str} (hh : t.head? = some '#')
    (hsp : splitEq t = [p, vv]) : ∃ h2, p = '#' :: h2 := by
  rcases t with _ | ⟨c, t2⟩
  · exact absurd hh (by simp)
  · rw [List.head?_cons, Option.some.injEq] at hh
    subst hh
    rw [splitEq_cons_ne (by decide)] at hsp
    rcases hsp2 : splitEq t2 with _ | ⟨h0, tl⟩
    · exact absurd hsp2 (splitEq_ne_nil _)
    · rw [hsp2] at hsp
      dsimp only at hsp
      rw [List.cons.injEq] at hsp
      exact ⟨h0, hsp.1.symm⟩

theorem updLine_cases (pkgL v l : Str) :
    ((updLine pkgL v l).1 = false ∧ (updLine pkgL v l).2 = l ∧
      ((trimChars l).isEmpty = true ∨ (trimChars l).head? = some '#' ∨
        splitEq1 (trimChars l) = none ∨
        ∃ p rest, splitEq1 (trimChars l) = some (p, rest) ∧
          lowerChars (trimChars p) ≠ pkgL)) ∨
    ((updLine pkgL v l).1 = true ∧
      ∃ p rest, splitEq1 (trimChars l) = some (p, rest) ∧
        lowerChars (trimChars p) = pkgL ∧
        (updLine pkgL v l).2 = trimChars p ++ str "==" ++ v) := by
  unfold updLine
  by_cases h1 : (!(trimChars l).isEmpty && !((trimChars l).head? == some '#')) = true
  · rw [if_pos h1]
    rcases hsp : splitEq1 (trimChars l) with _ | ⟨p, rest⟩
    · exact Or.inl ⟨rfl, rfl, Or.inr (Or.inr (Or.inl rfl))⟩
    · dsimp only
      by_cases h2 : (lowerChars (trimChars p) == pkgL) = true
      · rw [if_pos h2]
        exact Or.inr ⟨rfl, p, rest, rfl, by simpa using h2, rfl⟩
      · rw [if_neg h2]
        exact Or.inl ⟨rfl, rfl, Or.inr (Or.inr (Or.inr ⟨p, rest, rfl, by simpa using h2⟩))⟩
  · rw [if_neg h1]
    refine Or.inl ⟨rfl, rfl, ?_⟩
    by_cases ha : (trimChars l).isEmpty = true
    · exact Or.inl ha
    · have ha2 : (trimChars l).isEmpty = false := Bool.eq_false_iff.mpr ha
      rcases hbb : ((trimChars l).head? == some '#') with _ | _
      · exact absurd (by rw [ha2, hbb]; rfl) h1
      · exact Or.inr (Or.inl (by simpa using hbb))
/-- Claim C7 counterexample: rewriting the pin flask -> 3.0.3 in a manifest
whose matching line carries a trailing comment produces the bare line
"Flask==3.0.3": the trailing comment and whitespace are discarded, not
preserved as the specification states. -/
theorem c7_setpin_drops_trailing_comment_cex :
    update_package_version_in_file (str "flask") (str "3.0.3")
        [str "Flask==3.0.2  # web framework"] =
      (true, [str "Flask==3.0.3"]) ∧
    ¬ List.IsSuffix (str "# web framework") (str "Flask==3.0.3") := by
  constructor
  · rfl
  · decide

/-- Claim C7 (amended): for a non-empty, "="-free, stripped version v and a
non-empty package name n not lowering to a "#"-headed string, on a manifest
whose lines split into at most two "=="-parts with stray-"="-free keys and
which contains at least one matching pin line, update_package_version_in_file
reports updated and maps every line through the per-line rewrite: lines the
rewrite does not flag are byte-identical, every flagged line is replaced by
the stripped original-casing name, "==", and v (trailing comments and
whitespace dropped), and get_package_version afterwards returns v. -/
theorem c7_setpin_rewrite_roundtrip (n v : Str) (lines : List Str)
    (hn1 : n ≠ []) (hn2 : (lowerChars n).head? ≠ some '#')
    (hv1 : v ≠ []) (hv2 : '=' ∉ v) (hv3 : trimChars v = v)
    (hone : ∀ l ∈ lines, (splitEq (trimChars l)).length ≤ 2)
    (hkeys : ∀ l ∈ lines, keyNoEq l = true)
    (hmatch : (update_package_version_in_file n v lines).1 = true) :
    (update_package_version_in_file n v lines).2 =
      lines.map (fun l => (updLine (lowerChars n) v l).2) ∧
    (∀ l ∈ lines, (updLine (lowerChars n) v l).1 = false →
      (updLine (lowerChars n) v l).2 = l) ∧
    (∀ l ∈ lines, (updLine (lowerChars n) v l).1 = true →
      ∃ p rest, splitEq1 (trimChars l) = some (p, rest) ∧
        lowerChars (trimChars p) = lowerChars n ∧
        (updLine (lowerChars n) v l).2 = trimChars p ++ str "==" ++ v) ∧
    get_package_version (update_package_version_in_file n v lines).2 n = some v := by
  have hsnd : (update_package_version_in_file n v lines).2 =
      lines.map (fun l => (updLine (lowerChars n) v l).2) := by
    unfold update_package_version_in_file
    dsimp only
    rw [List.map_map]
    rfl
  have htrue : ∀ l ∈ lines, (updLine (lowerChars n) v l).1 = true →
      ∃ p rest, splitEq1 (trimChars l) = some (p, rest) ∧
        lowerChars (trimChars p) = lowerChars n ∧
        (updLine (lowerChars n) v l).2 = trimChars p ++ str "==" ++ v := by
    intro l _ hfl
    rcases updLine_cases (lowerChars n) v l with ⟨hf, _, _⟩ | ⟨_, p, rest, hsp, hlow, ho⟩
    · rw [hfl] at hf
      cases hf
    · exact ⟨p, rest, hsp, hlow, ho⟩
  have hfalse : ∀ l ∈ lines, (updLine (lowerChars n) v l).1 = false →
      (updLine (lowerChars n) v l).2 = l := by
    intro l _ hfl
    rcases updLine_cases (lowerChars n) v l with ⟨_, hid, _⟩ | ⟨ht, _⟩
    · exact hid
    · rw [hfl] at ht
      cases ht
  have hmatched : ∀ l ∈ lines, (updLine (lowerChars n) v l).1 = true →
      ∃ p rest, splitEq1 (trimChars l) = some (p, rest) ∧
        lowerChars (trimChars p) = lowerChars n ∧ '=' ∉ trimChars p ∧
        trimChars p ≠ [] ∧
        splitEq (trimChars ((updLine (lowerChars n) v l).2)) = [trimChars p, v] := by
    intro l hl hfl
    obtain ⟨p, rest, hsp, hlow, ho⟩ := htrue l hl hfl
    have hkey : '=' ∉ trimChars p := by
      have hk := hkeys l hl
      unfold keyNoEq at hk
      rw [hsp] at hk
      exact of_decide_eq_true hk
    have hpne : trimChars p ≠ [] := by
      intro hpe
      rw [hpe] at hlow
      apply hn1
      have h0 : lowerChars n = [] := hlow.symm
      simpa [lowerChars] using h0
    have happ : trimChars p ++ str "==" ++ v = trimChars p ++ ('=' :: '=' :: v) := by
      rw [List.append_assoc]
      rfl
    have htc : trimChars (trimChars p ++ ('=' :: '=' :: v)) =
        trimChars p ++ ('=' :: '=' :: v) :=
      trim_concat (trim_idem p) hpne hv3 hv1
    have hse : splitEq (trimChars p ++ ('=' :: '=' :: v)) = [trimChars p, v] := by
      rw [splitEq_concat hkey v, splitEq_no_eq hv2]
    exact ⟨p, rest, hsp, hlow, hkey, hpne, by rw [ho, happ, htc, hse]⟩
  have hall : ∀ e ∈ readReqs [] (lines.map (fun l => (updLine (lowerChars n) v l).2)),
      lowerChars e.1 = lowerChars n → e.2 = v := by
    refine readReqs_entries (fun e => lowerChars e.1 = lowerChars n → e.2 = v) _ []
      (fun e he => absurd he (List.not_mem_nil e)) ?_
    intro l2 hl2 p vv hspl
    rcases List.mem_map.1 hl2 with ⟨l, hl, rfl⟩
    rcases updLine_cases (lowerChars n) v l with
      ⟨_, hid, hwhy⟩ | ⟨ht, p0, rest0, hsp0, hlow0, ho0⟩
    · rw [hid] at hspl
      rcases hwhy with hemp | hhash | hnone | ⟨p1, r1, hsp1, hne1⟩
      · have hte : trimChars l = [] := by simpa [List.isEmpty_iff] using hemp
        rw [hte] at hspl
        rw [show splitEq ([] : Str) = [[]] from rfl] at hspl
        rw [List.cons.injEq] at hspl
        exact absurd hspl.2 (by simp)
      · obtain ⟨h2, rfl⟩ := splitEq_head_hash hhash hspl
        intro hlowkey
        exfalso
        apply hn2
        rw [← hlowkey, trimChars_hash_head]
        unfold lowerChars
        rw [List.map_cons, List.head?_cons]
        decide
      · exact absurd (hnone.symm.trans (splitEq1_of_two hspl)) (by simp)
      · have hs2 := splitEq1_of_two hspl
        rw [hsp1, Option.some.injEq, Prod.mk.injEq] at hs2
        obtain ⟨hpp, _⟩ := hs2
        intro hlowkey
        rw [← hpp] at hlowkey
        exact absurd hlowkey hne1
    · obtain ⟨p2, r2, hsp2, hlow2, hkey2, hpne2, hse2⟩ := hmatched l hl ht
      rw [hse2] at hspl
      rw [List.cons.injEq, List.cons.injEq] at hspl
      obtain ⟨hq1, hq2, _⟩ := hspl
      intro _
      rw [← hq2]
      exact hv3
  have hlen : ∀ l2 ∈ lines.map (fun l => (updLine (lowerChars n) v l).2),
      (splitEq (trimChars l2)).length ≤ 2 := by
    intro l2 hl2
    rcases List.mem_map.1 hl2 with ⟨l, hl, rfl⟩
    rcases hfl : (updLine (lowerChars n) v l).1 with _ | _
    · rw [hfalse l hl hfl]
      exact hone l hl
    · obtain ⟨p2, r2, _, _, _, _, hse2⟩ := hmatched l hl hfl
      rw [hse2]
      simp
  have hex : ∃ e ∈ readReqs [] (lines.map (fun l => (updLine (lowerChars n) v l).2)),
      lowerChars e.1 = lowerChars n := by
    have hm2 : ∃ l ∈ lines, (updLine (lowerChars n) v l).1 = true := by
      unfold update_package_version_in_file at hmatch
      dsimp only at hmatch
      rcases List.any_eq_true.1 hmatch with ⟨r, hr, hg⟩
      rcases List.mem_map.1 hr with ⟨l, hl, rfl⟩
      exact ⟨l, hl, hg⟩
    obtain ⟨l, hl, hfl⟩ := hm2
    obtain ⟨p2, r2, hsp2, hlow2, hkey2, hpne2, hse2⟩ := hmatched l hl hfl
    refine readReqs_covers (fun s => lowerChars s = lowerChars n) _ [] hlen (Or.inr ?_)
    refine ⟨(updLine (lowerChars n) v l).2, List.mem_map.2 ⟨l, hl, rfl⟩,
      trimChars p2, v, hse2, ?_⟩
    rw [trim_idem]
    exact hlow2
  have hlook : lookupD
      ((readReqs [] (lines.map (fun l => (updLine (lowerChars n) v l).2))).foldl
        (fun acc e => dictSet acc (lowerChars e.1) e.2) []) (lowerChars n) = some v :=
    foldLower_lookup (lowerChars n) v _ [] hall (Or.inr ⟨rfl, hex⟩)
  have hround : get_package_version
      (lines.map (fun l => (updLine (lowerChars n) v l).2)) n = some v := by
    unfold get_package_version
    dsimp only
    rw [hlook]
    have hvE : ¬(v.isEmpty = true) := by
      rw [List.isEmpty_iff]
      exact hv1
    show (if v.isEmpty then none else some v) = some v
    rw [if_neg hvE]
  refine ⟨hsnd, hfalse, htrue, ?_⟩
  rw [hsnd]
  exact hround

/-- Claim C7 witness: in the manifest ["# comment", "Flask==3.0.2",
"requests==2.0"], setting flask to 3.0.3 updates the Flask line and the
subsequent lookup returns 3.0.3. -/
theorem c7_setpin_rewrite_roundtrip_witness :
    get_package_version
      (update_package_version_in_file (str "flask") (str "3.0.3")
        [str "# comment", str "Flask==3.0.2", str "requests==2.0"]).2
      (str "flask") = some (str "3.0.3") :=
  (c7_setpin_rewrite_roundtrip (str "flask") (str "3.0.3")
      [str "# comment", str "Flask==3.0.2", str "requests==2.0"]
      (by decide) (by decide) (by decide) (by decide) (by decide)
      (by decide) (by decide) (by decide)).2.2.2

end PT
